import Mathlib

/-!
Verification development for the "Tic-Tac-Shift" game engine
(a 20×20 board, a sliding 3×3 viewport, a strip of newly revealed cells,
and a one-ply heuristic computer opponent).

The Python source is embedded shallowly:
* the board is a total function `Int → Int → Option Mark` (Python indexes
  `board[y][x]`, and all guarded accesses are in bounds, so a total
  function is adequate);
* in-place mutation is modeled functionally (`setCell`); the trial-and-revert
  scan of `immediate_win_cells` is additionally modeled as an explicit
  state-passing fold (`immediate_win_cellsMut`) so that the "board is restored"
  property is a real statement;
* `center_bias` computes `-math.hypot(x - 9.5, y - 9.5)` with floats; it is
  modeled as an abstract parameter `cb : Int → Int → ℚ` about which theorems
  assume only facts true of the real function (it is nonpositive, and at
  on-board coordinates it is at least `-14`, since `hypot ≤ 9.5·√2 < 13.44`);
* `random.choice` is modeled by `pick`, an arbitrary seeded uniform index
  draw, and the induced outcome distribution by `cpuOutcomes`/`probList`;
* the unbounded `while` loops of `line_score` are modeled with fuel; fuel 20
  is enough for every in-bounds start cell (proved below).
-/

/-- The two marks that can occupy a cell (Python strings "X" and "O"). -/
inductive Mark
  | X
  | O
deriving DecidableEq

/-- The board, Python `board[y][x]`: row index first. -/
abbrev Board := Int → Int → Option Mark

def BOARD_SIZE : Int := 20

def VIEW_SIZE : Int := 3

def VISIBLE_SIZE : Int := 5

def CELL_SIZE : Int := 32

def MARGIN : Int := 30

/-- Functional model of the in-place assignment `board[y][x] = v`. -/
def setCell (b : Board) (y x : Int) (v : Option Mark) : Board :=
  fun y1 x1 => if y1 = y ∧ x1 = x then v else b y1 x1

/-- Source `in_bounds(x, y)`: `0 <= x < BOARD_SIZE and 0 <= y < BOARD_SIZE`. -/
def in_bounds (x y : Int) : Bool :=
  decide (0 ≤ x ∧ x < BOARD_SIZE ∧ 0 ≤ y ∧ y < BOARD_SIZE)

/-- The integers `0, …, 19`, the iteration space `range(BOARD_SIZE)`. -/
def range20 : List Int :=
  [0, 1, 2, 3, 4, 5, 6, 7, 8, 9, 10, 11, 12, 13, 14, 15, 16, 17, 18, 19]

/-- All board cells `(x, y)` in the row-major order of the source's scans
(`for y in range(BOARD_SIZE): for x in range(BOARD_SIZE)`). -/
def allCells : List (Int × Int) :=
  range20.flatMap (fun y => range20.map (fun x => (x, y)))

/-- The integers `0, 1, 2`, the iteration space `range(VIEW_SIZE)`. -/
def range3 : List Int := [0, 1, 2]

/-- Source `viewport_cells`: `(view_x+dx, view_y+dy)` for `dy` outer, `dx` inner. -/
def viewport_cells (view_x view_y : Int) : List (Int × Int) :=
  range3.flatMap (fun dy => range3.map (fun dx => (view_x + dx, view_y + dy)))

/-- Source `revealed_strip(old_x, old_y, new_x, new_y)`. -/
def revealed_strip (old_x old_y new_x new_y : Int) : List (Int × Int) :=
  if old_x < new_x then (range3.map (fun dy => (new_x + VIEW_SIZE - 1, new_y + dy)))
  else if new_x < old_x then (range3.map (fun dy => (new_x, new_y + dy)))
  else if old_y < new_y then (range3.map (fun dx => (new_x + dx, new_y + VIEW_SIZE - 1)))
  else if new_y < old_y then (range3.map (fun dx => (new_x + dx, new_y)))
  else []

/-- Source `empty_cells(board, cells)`: the cells of the list whose board
entry is `None`, in order. -/
def empty_cells (b : Board) (cells : List (Int × Int)) : List (Int × Int) :=
  cells.filter (fun c => decide (b c.2 c.1 = none))

/-- The four scan directions of `check_winner` and `line_score`:
right, down, down-right, up-right. -/
def dirs4 : List (Int × Int) := [(1, 0), (0, 1), (1, 1), (1, -1)]

/-- The inner `all(...)` of `check_winner`: the three cells starting at
`(x, y)` in direction `d` are in bounds and hold `s`. -/
def winAt (b : Board) (x y : Int) (s : Mark) (d : Int × Int) : Bool :=
  range3.all (fun i =>
    in_bounds (x + i * d.1) (y + i * d.2) &&
      decide (b (y + i * d.2) (x + i * d.1) = some s))

/-- Source `check_winner(board)`: scan cells row-major; at each occupied cell
return its mark if a 3-run starts there in one of the four directions. -/
def check_winner (b : Board) : Option Mark :=
  allCells.findSome? (fun c =>
    match b c.2 c.1 with
    | none => none
    | some s => if dirs4.any (fun d => winAt b c.1 c.2 s d) then some s else none)

/-- Source `immediate_win_cells(board, symbol)`, functional form: the empty
cells where hypothetically placing `symbol` yields a win for `symbol`.
(The Python function collects these into a set by mutating and restoring the
board; `immediate_win_cellsMut` below models that mutation explicitly and is
proved to restore the board and to compute this same list.) -/
def immediate_win_cells (b : Board) (symbol : Mark) : List (Int × Int) :=
  allCells.filter (fun c =>
    decide (b c.2 c.1 = none) &&
      decide (check_winner (setCell b c.2 c.1 (some symbol)) = some symbol))

/-- One iteration of the `immediate_win_cells` loop, threading the mutated
board: skip occupied cells; otherwise place the trial mark, test, record,
and write `None` back. -/
def iwcStep (symbol : Mark) (acc : List (Int × Int) × Board) (c : Int × Int) :
    List (Int × Int) × Board :=
  if acc.2 c.2 c.1 ≠ none then acc
  else
    let b1 := setCell acc.2 c.2 c.1 (some symbol)
    let w := if check_winner b1 = some symbol then acc.1 ++ [c] else acc.1
    (w, setCell b1 c.2 c.1 none)

/-- Source `immediate_win_cells` with its board mutation made explicit:
returns the recorded winning cells together with the board state left behind
after all trial placements and reverts. -/
def immediate_win_cellsMut (b : Board) (symbol : Mark) :
    List (Int × Int) × Board :=
  allCells.foldl (iwcStep symbol) ([], b)

/-- Source `clamp(value, min_value, max_value)`. -/
def clamp (value min_value max_value : Int) : Int :=
  max min_value (min value max_value)

/-- Fueled model of the inner `while True` run-counting loop of `line_score`:
starting from offset `step`, count how many consecutive offsets have an
in-bounds cell holding `symbol`, stepping by `(ddx, ddy)`. -/
def addRunAux (b : Board) (symbol : Mark) (x y ddx ddy : Int) :
    Nat → Int → Nat
  | 0, _ => 0
  | fuel + 1, step =>
    if in_bounds (x + ddx * step) (y + ddy * step) &&
        decide (b (y + ddy * step) (x + ddx * step) = some symbol)
    then addRunAux b symbol x y ddx ddy fuel (step + 1) + 1
    else 0

/-- One of the two `for direction in (1, -1)` passes of `line_score`:
the Python step `x + dx * step * direction` is `x + (dx * direction) * step`. -/
def addRun (b : Board) (symbol : Mark) (x y dx dy direction : Int)
    (fuel : Nat) : Nat :=
  addRunAux b symbol x y (dx * direction) (dy * direction) fuel 1

/-- The `count` accumulated for one direction pair of `line_score`:
the cell itself plus both passes. -/
def dirCount (fuel : Nat) (b : Board) (x y : Int) (symbol : Mark)
    (dx dy : Int) : Nat :=
  1 + addRun b symbol x y dx dy 1 fuel + addRun b symbol x y dx dy (-1) fuel

/-- Source `line_score(board, x, y, symbol)` with explicit fuel for the
unbounded loops: sum of squared run counts over the four directions. -/
def line_scoreF (fuel : Nat) (b : Board) (x y : Int) (symbol : Mark) : Nat :=
  (dirs4.map (fun d =>
    dirCount fuel b x y symbol d.1 d.2 * dirCount fuel b x y symbol d.1 d.2)).sum

/-- Source `line_score`; fuel 20 is enough for every in-bounds `(x, y)`
(theorem `c10_line_score_fuel_stable`). -/
def line_score (b : Board) (x y : Int) (symbol : Mark) : Nat :=
  line_scoreF 20 b x y symbol

/-- The facts our theorems use about the abstract `center_bias` model `cb`
(true of the real `-math.hypot(x - 9.5, y - 9.5)`): it is never positive,
and at on-board coordinates it is at least `-14`. -/
def cbOK (cb : Int → Int → ℚ) : Prop :=
  (∀ x y, cb x y ≤ 0) ∧
    (∀ x y, 0 ≤ x → x < BOARD_SIZE → 0 ≤ y → y < BOARD_SIZE → -14 ≤ cb x y)

/-- The sentinel `-1e9` used by `evaluate_stay` and `cpu_take_turn`. -/
def NEG_INF : ℚ := -1000000000

/-- The score `evaluate_stay` assigns to hypothetically placing the
computer's mark at `p` (the board already holds the trial mark when
`line_score` runs, exactly as in the source). -/
def placeScore (cb : Int → Int → ℚ) (b : Board)
    (player_wins : List (Int × Int)) (p : Int × Int) : ℚ :=
  if check_winner (setCell b p.2 p.1 (some Mark.O)) = some Mark.O then 1000000
  else
    (if p ∈ player_wins then (200000 : ℚ) else 0)
      + (line_score (setCell b p.2 p.1 (some Mark.O)) p.1 p.2 Mark.O : ℚ) * 8
      + (line_score (setCell b p.2 p.1 (some Mark.O)) p.1 p.2 Mark.X : ℚ) * 3
      + cb p.1 p.2 * 5

/-- One step of the best-score/tied-candidates fold shared by
`evaluate_stay` and `cpu_take_turn`: `if score > best_score` reset the
candidate list, `elif score == best_score` append. -/
def amStep {α : Type} (f : α → ℚ) (acc : ℚ × List α) (x : α) : ℚ × List α :=
  if acc.1 < f x then (f x, [x])
  else if f x = acc.1 then (acc.1, acc.2 ++ [x])
  else acc

/-- The best-score/tied-candidates fold shared by `evaluate_stay` and
`cpu_take_turn`, starting from `best_score = init` and an empty candidate
list. -/
def argmaxF {α : Type} (f : α → ℚ) (init : ℚ) (l : List α) : ℚ × List α :=
  l.foldl (amStep f) (init, [])

/-- Maximum of `f` over `l` with initial value `init` (the value tracked in
`best_score` by the folds of the source). -/
def listMaxF {α : Type} (f : α → ℚ) (init : ℚ) (l : List α) : ℚ :=
  l.foldl (fun m x => max m (f x)) init

/-- Model of `random.choice` drawn with seed `i`: a uniform index into the
list (`none` on the empty list, where Python would raise). -/
def pick {α : Type} (i : Nat) (l : List α) : Option α :=
  l[i % l.length]?

/-- The deterministic part of source `evaluate_stay(board, strip)`: the best
score and the full list of placements tied at it. Sentinels as in the
source: `-1e9` for an absent strip, `-5000` for a strip with no empty cell. -/
def stayEval (cb : Int → Int → ℚ) (b : Board) (strip : List (Int × Int)) :
    ℚ × List (Int × Int) :=
  if strip = [] then (NEG_INF, [])
  else if empty_cells b strip = [] then (-5000, [])
  else
    argmaxF (placeScore cb b (immediate_win_cells b Mark.X)) NEG_INF
      (empty_cells b strip)

/-- Source `evaluate_stay`: the best score together with
`random.choice(best_placements)` drawn with seed `i`. -/
def evaluate_stay (cb : Int → Int → ℚ) (i : Nat) (b : Board)
    (strip : List (Int × Int)) : ℚ × Option (Int × Int) :=
  ((stayEval cb b strip).1, pick i (stayEval cb b strip).2)

/-- The four movement directions. -/
inductive Dir
  | up
  | down
  | left
  | right
deriving DecidableEq

/-- The `DIRECTIONS` table of the source. -/
def delta : Dir → Int × Int
  | Dir.up => (0, -1)
  | Dir.down => (0, 1)
  | Dir.left => (-1, 0)
  | Dir.right => (1, 0)

/-- The iteration order `for move in DIRECTIONS` (insertion order). -/
def dirList : List Dir := [Dir.up, Dir.down, Dir.left, Dir.right]

/-- The aggregate game state (source dataclass `GameState`). -/
structure GameState where
  board : Board
  view_x : Int
  view_y : Int
  current : Mark
  strip_cells : List (Int × Int)
  game_over : Bool
  winner : Option Mark
  message : String

/-- Source `new_game()`. -/
def new_game : GameState :=
  { board := fun _ _ => none
    view_x := (BOARD_SIZE - VIEW_SIZE) / 2
    view_y := (BOARD_SIZE - VIEW_SIZE) / 2
    current := Mark.X
    strip_cells := []
    game_over := false
    winner := none
    message := "" }

/-- Source `evaluate_move(board, move, view_x, view_y)`: score of shifting
the viewport (board content unused, exactly as in the source). -/
def evaluate_move (cb : Int → Int → ℚ) (_b : Board) (move : Dir)
    (view_x view_y : Int) : ℚ × (Int × Int) :=
  let d := delta move
  (cb (view_x + d.1 + 1) (view_y + d.2 + 1) * 5, (view_x + d.1, view_y + d.2))

/-- A candidate action of `cpu_take_turn`: `("stay", payload)` or
`("move", (new_x, new_y))`. -/
inductive CpuAction
  | stay (p : Option (Int × Int))
  | move (v : Int × Int)
deriving DecidableEq

/-- The legal shift directions at a viewport origin
(`0 <= new <= BOARD_SIZE - VIEW_SIZE` on both axes; illegal ones are
skipped by `continue` in the source). -/
def legalMoves (view_x view_y : Int) : List Dir :=
  dirList.filter (fun m =>
    decide (0 ≤ view_x + (delta m).1 ∧
      view_x + (delta m).1 ≤ BOARD_SIZE - VIEW_SIZE ∧
      0 ≤ view_y + (delta m).2 ∧
      view_y + (delta m).2 ≤ BOARD_SIZE - VIEW_SIZE))

/-- The shift candidates of `cpu_take_turn`: one `move` action per legal
direction, carrying the shifted origin computed by `evaluate_move`. -/
def moveActions (cb : Int → Int → ℚ) (st : GameState) : List CpuAction :=
  (legalMoves st.view_x st.view_y).map
    (fun m => CpuAction.move (evaluate_move cb st.board m st.view_x st.view_y).2)

/-- The action list `cpu_take_turn` scores, in source order: the stay action
(with the placement pre-drawn by `evaluate_stay`), then the legal shifts. -/
def cpuActions (cb : Int → Int → ℚ) (st : GameState)
    (sp : Option (Int × Int)) : List CpuAction :=
  CpuAction.stay sp :: moveActions cb st

/-- The score `cpu_take_turn` compares for each candidate action: the stay
score for the stay action, `evaluate_move`'s score for a shift (that score
depends only on the shifted origin). -/
def actionScore (cb : Int → Int → ℚ) (sc : ℚ) : CpuAction → ℚ
  | CpuAction.stay _ => sc
  | CpuAction.move v => cb (v.1 + 1) (v.2 + 1) * 5

/-- The final `candidates` list of `cpu_take_turn`, given the stay score and
the pre-drawn stay placement. -/
def candidatesFor (cb : Int → Int → ℚ) (st : GameState) (sc : ℚ)
    (sp : Option (Int × Int)) : List CpuAction :=
  (argmaxF (actionScore cb sc) NEG_INF (cpuActions cb st sp)).2

/-- The action `random.choice(candidates)` selects in `cpu_take_turn`, with
seed `i` for the draw inside `evaluate_stay` and seed `j` for the final draw. -/
def cpuChosenAction (cb : Int → Int → ℚ) (i j : Nat) (st : GameState) :
    Option CpuAction :=
  pick j (candidatesFor cb st (stayEval cb st.board st.strip_cells).1
    (pick i (stayEval cb st.board st.strip_cells).2))

/-- The effect of the chosen action in `cpu_take_turn`: a stay with a payload
places "O", ends the game on a win (strip untouched, early return) and
otherwise clears the strip; a shift replaces the strip and moves the
viewport; a stay without payload does nothing; every non-returning path
hands the turn back to "X". -/
def applyCpuAction (st : GameState) : CpuAction → GameState
  | CpuAction.stay none => { st with current := Mark.X }
  | CpuAction.stay (some p) =>
    let b1 := setCell st.board p.2 p.1 (some Mark.O)
    match check_winner b1 with
    | some w =>
      { st with board := b1, game_over := true, winner := some w,
                message := "CPU wins!" }
    | none => { st with board := b1, strip_cells := [], current := Mark.X }
  | CpuAction.move v =>
    { st with strip_cells := revealed_strip st.view_x st.view_y v.1 v.2,
              view_x := v.1, view_y := v.2, current := Mark.X }

/-- Source `cpu_take_turn(state)`: score, draw, apply (no-op when the
candidate list is empty, where the source returns early). -/
def cpu_take_turn (cb : Int → Int → ℚ) (i j : Nat) (st : GameState) :
    GameState :=
  match cpuChosenAction cb i j st with
  | none => st
  | some a => applyCpuAction st a

/-- Source `end_turn(state)`. -/
def end_turn (cb : Int → Int → ℚ) (i j : Nat) (st : GameState) : GameState :=
  if st.game_over then st
  else if st.current = Mark.X then
    cpu_take_turn cb i j { st with current := Mark.O }
  else { st with current := Mark.X }

/-- Source `move_view(state, move)`: the returned Bool together with the
resulting state. -/
def move_view (cb : Int → Int → ℚ) (i j : Nat) (st : GameState) (move : Dir) :
    Bool × GameState :=
  let d := delta move
  let new_x := st.view_x + d.1
  let new_y := st.view_y + d.2
  if ¬(0 ≤ new_x ∧ new_x ≤ BOARD_SIZE - VIEW_SIZE ∧
      0 ≤ new_y ∧ new_y ≤ BOARD_SIZE - VIEW_SIZE) then (false, st)
  else
    let strip := revealed_strip st.view_x st.view_y new_x new_y
    (true, end_turn cb i j
      { st with view_x := new_x, view_y := new_y, strip_cells := strip })

/-- The pixel-to-cell mapping of `handle_player_click`: `//` is Python floor
division, `Int.fdiv`. -/
def click_cell (st : GameState) (pos : Int × Int) : Int × Int :=
  let visible_x := clamp (st.view_x - 1) 0 (BOARD_SIZE - VISIBLE_SIZE)
  let visible_y := clamp (st.view_y - 1) 0 (BOARD_SIZE - VISIBLE_SIZE)
  (Int.fdiv (pos.1 - MARGIN) CELL_SIZE + visible_x,
    Int.fdiv (pos.2 - MARGIN) CELL_SIZE + visible_y)

/-- The mutation performed by `handle_player_click` once all validations
pass: place "X", end the game on a win (strip untouched, early return),
otherwise clear the strip. -/
def playerPlace (st : GameState) (cell : Int × Int) : GameState :=
  let b1 := setCell st.board cell.2 cell.1 (some Mark.X)
  match check_winner b1 with
  | some w =>
    { st with board := b1, game_over := true, winner := some w,
              message := "You win!" }
  | none => { st with board := b1, strip_cells := [] }

/-- Source `handle_player_click(state, pos)`: the guard chain, then the
placement, then `end_turn` unless the placement ended the game. -/
def handle_player_click (cb : Int → Int → ℚ) (i j : Nat) (st : GameState)
    (pos : Int × Int) : GameState :=
  if st.current ≠ Mark.X ∨ st.game_over = true then st
  else if st.strip_cells = [] then st
  else if ¬(MARGIN ≤ pos.1 ∧ pos.1 ≤ MARGIN + VISIBLE_SIZE * CELL_SIZE ∧
      MARGIN ≤ pos.2 ∧ pos.2 ≤ MARGIN + VISIBLE_SIZE * CELL_SIZE) then st
  else
    let cell := click_cell st pos
    if cell ∉ st.strip_cells then st
    else if st.board cell.2 cell.1 ≠ none then st
    else
      let st1 := playerPlace st cell
      if st1.game_over then st1 else end_turn cb i j st1

/-- The outcome sample space of the computer's two-stage draw, one list
element per equally likely outcome: `evaluate_stay` first draws uniformly
among its tied best placements, then `cpu_take_turn` draws uniformly among
the pooled candidates built from that representative. The candidate list's
length does not depend on which representative was drawn (only the stay
payload differs), so uniform over this concatenation is exactly the joint
distribution of the two draws. -/
def cpuOutcomes (cb : Int → Int → ℚ) (st : GameState) : List CpuAction :=
  if (stayEval cb st.board st.strip_cells).2 = [] then
    candidatesFor cb st (stayEval cb st.board st.strip_cells).1 none
  else
    ((stayEval cb st.board st.strip_cells).2).flatMap
      (fun p => candidatesFor cb st (stayEval cb st.board st.strip_cells).1
        (some p))

/-- Modelled from the spec (§4.4): the pooled candidate pool, one action per
empty strip cell plus one per legal shift; when the strip is absent or has
no empty cell, the stay class is represented by a single sentinel-scored
action, "excluded via sentinel rather than throwing". -/
def specActions (cb : Int → Int → ℚ) (st : GameState) : List CpuAction :=
  (if st.strip_cells = [] ∨ empty_cells st.board st.strip_cells = [] then
      [CpuAction.stay none]
    else (empty_cells st.board st.strip_cells).map
      (fun p => CpuAction.stay (some p)))
  ++ moveActions cb st

/-- Modelled from the spec (§4.4): the score of each pooled action. -/
def specScore (cb : Int → Int → ℚ) (st : GameState) : CpuAction → ℚ
  | CpuAction.stay none => if st.strip_cells = [] then NEG_INF else -5000
  | CpuAction.stay (some p) =>
    placeScore cb st.board (immediate_win_cells st.board Mark.X) p
  | CpuAction.move v => cb (v.1 + 1) (v.2 + 1) * 5

/-- Modelled from the spec (§4.4): "all actions (across both classes) tied
at the maximum score are candidates". -/
def specPooledTied (cb : Int → Int → ℚ) (st : GameState) : List CpuAction :=
  (specActions cb st).filter
    (fun a => decide (specScore cb st a =
      listMaxF (specScore cb st) NEG_INF (specActions cb st)))

/-- Probability of drawing `a` from a uniform draw over the list `l`. -/
def probList (l : List CpuAction) (a : CpuAction) : ℚ :=
  (l.count a : ℚ) / (l.length : ℚ)

/-- A 3-cell run of mark `m` starting at `(x, y)` with step `(dx, dy)`:
all three cells are in bounds and hold `m` (the spec's notion of a winning
run, stated positionally). -/
def runAt (b : Board) (m : Mark) (x y dx dy : Int) : Prop :=
  ∀ i : Int, 0 ≤ i → i < 3 →
    in_bounds (x + i * dx) (y + i * dy) = true ∧
      b (y + i * dy) (x + i * dx) = some m

/-- Some 3-cell run of `m` exists along a row, a column, or either diagonal. -/
def hasRun (b : Board) (m : Mark) : Prop :=
  ∃ x y dx dy, ((dx, dy) ∈ dirs4) ∧ runAt b m x y dx dy

/-- A shift is geometrically illegal: the shifted origin leaves
`[0, BOARD_SIZE - VIEW_SIZE]` on some axis. -/
def shiftIllegal (st : GameState) (m : Dir) : Prop :=
  ¬(0 ≤ st.view_x + (delta m).1 ∧
    st.view_x + (delta m).1 ≤ BOARD_SIZE - VIEW_SIZE ∧
    0 ≤ st.view_y + (delta m).2 ∧
    st.view_y + (delta m).2 ≤ BOARD_SIZE - VIEW_SIZE)

/-- All strip cells carry on-board coordinates (an invariant of every strip
the game constructs). -/
def stripOK (st : GameState) : Prop :=
  ∀ c ∈ st.strip_cells, 0 ≤ c.1 ∧ c.1 < BOARD_SIZE ∧ 0 ≤ c.2 ∧ c.2 < BOARD_SIZE

/-- The viewport origin is in its legal range (an invariant of the game). -/
def viewOK (st : GameState) : Prop :=
  0 ≤ st.view_x ∧ st.view_x ≤ BOARD_SIZE - VIEW_SIZE ∧
    0 ≤ st.view_y ∧ st.view_y ≤ BOARD_SIZE - VIEW_SIZE

/-! ### Example boards, states and bias functions used by witnesses -/

/-- The empty board. -/
def bEmpty : Board := fun _ _ => none

/-- A board with a completed X row at (0,0)-(2,0). -/
def bRow : Board := fun y x =>
  if y = 0 ∧ (x = 0 ∨ x = 1 ∨ x = 2) then some Mark.X else none

/-- A board with two O marks at (0,0) and (1,0): O completes a row at (2,0). -/
def bTwo : Board := fun y x =>
  if y = 0 ∧ (x = 0 ∨ x = 1) then some Mark.O else none

/-- A board with two X marks at (3,3) and (4,3): X completes a row at (2,3)
or (5,3). -/
def bC3 : Board := fun y x =>
  if y = 3 ∧ (x = 3 ∨ x = 4) then some Mark.X else none

/-- Convenience constructor for non-terminal example states. -/
def mkState (b : Board) (vx vy : Int) (cur : Mark)
    (strip : List (Int × Int)) : GameState :=
  { board := b, view_x := vx, view_y := vy, current := cur,
    strip_cells := strip, game_over := false, winner := none, message := "" }

/-- A constant center-bias model satisfying `cbOK`. -/
def cbW : Int → Int → ℚ := fun _ _ => -1

/-- A center-bias model (within the real function's bounds) engineered so
that two placements and one shift tie at the maximum pooled score. -/
def cbEx : Int → Int → ℚ := fun x y =>
  if (x = 0 ∧ y = 0) ∨ (x = 0 ∧ y = 1) then -10
  else if x = 0 ∧ y = 2 then -12
  else if x = 9 ∧ y = 8 then -6/5
  else -13

/-- Computer to move on an empty board with a three-cell strip; under
`cbEx` the placements at (0,0) and (0,1) and the shift up tie at score -6. -/
def stEx : GameState := mkState bEmpty 8 8 Mark.O [(0, 0), (0, 1), (0, 2)]

/-- Computer to move, O at (0,0) and (1,0), the strip containing the
winning completion (2,0). -/
def stC2 : GameState := mkState bTwo 8 8 Mark.O [(2, 0), (3, 0), (4, 0)]

/-- Computer to move, X threatens at (3,3)-(4,3); the strip contains the
lone blocking cell (5,3). -/
def stC3 : GameState := mkState bC3 8 8 Mark.O [(5, 3), (5, 4), (5, 5)]

/-- Player to move with the strip containing (5,3); clicking pixel (62,62)
maps to cell (5,3) and completes the X row (3,3)-(5,3). -/
def stC4 : GameState := mkState bC3 5 3 Mark.X [(5, 3), (5, 4), (5, 5)]

/-- Player to move on an empty board; placing in the strip does not win. -/
def stC4b : GameState := mkState bEmpty 8 8 Mark.X [(8, 7), (9, 7), (10, 7)]

/-- A state where it is not the player's turn. -/
def stC6 : GameState := mkState bEmpty 8 8 Mark.O [(0, 0)]

/-- A state with the viewport at the left edge. -/
def stC7 : GameState := mkState bEmpty 0 8 Mark.X []

/-- Computer to move with no strip: the stay action carries sentinel score. -/
def stW5 : GameState := mkState bEmpty 8 8 Mark.O []

/-! ### Membership lemmas for the iteration spaces -/

theorem mem_range20 {x : Int} : x ∈ range20 ↔ 0 ≤ x ∧ x < 20 := by
  simp only [range20, List.mem_cons, List.not_mem_nil, or_false]
  omega

theorem mem_allCells {c : Int × Int} :
    c ∈ allCells ↔ 0 ≤ c.1 ∧ c.1 < 20 ∧ 0 ≤ c.2 ∧ c.2 < 20 := by
  obtain ⟨cx, cy⟩ := c
  simp only [allCells, List.mem_flatMap, List.mem_map, mem_range20,
    Prod.mk.injEq]
  constructor
  · rintro ⟨y, hy, x, hx, rfl, rfl⟩
    exact ⟨hx.1, hx.2, hy.1, hy.2⟩
  · rintro ⟨h1, h2, h3, h4⟩
    exact ⟨cy, ⟨h3, h4⟩, cx, ⟨h1, h2⟩, rfl, rfl⟩

theorem mem_viewport_cells {c : Int × Int} {vx vy : Int} :
    c ∈ viewport_cells vx vy ↔
      vx ≤ c.1 ∧ c.1 < vx + 3 ∧ vy ≤ c.2 ∧ c.2 < vy + 3 := by
  obtain ⟨cx, cy⟩ := c
  simp only [viewport_cells, range3, List.mem_flatMap, List.mem_map,
    List.mem_cons, List.not_mem_nil, or_false, Prod.mk.injEq]
  constructor
  · rintro ⟨dy, hdy, dx, hdx, rfl, rfl⟩
    omega
  · rintro ⟨h1, h2, h3, h4⟩
    exact ⟨cy - vy, by omega, cx - vx, by omega, by omega, by omega⟩

/-! ### Board update lemmas and the trial-and-revert scan (C9) -/

theorem setCell_cancel {b : Board} {y x : Int} {m : Mark}
    (h : b y x = none) : setCell (setCell b y x (some m)) y x none = b := by
  funext y1 x1
  by_cases hc : y1 = y ∧ x1 = x
  · obtain ⟨rfl, rfl⟩ := hc
    simp [setCell, h]
  · simp [setCell, hc]

theorem iwc_foldl (symbol : Mark) (b : Board) :
    ∀ (l : List (Int × Int)) (w : List (Int × Int)),
      l.foldl (iwcStep symbol) (w, b) =
        (w ++ l.filter (fun c =>
          decide (b c.2 c.1 = none) &&
            decide (check_winner (setCell b c.2 c.1 (some symbol)) = some symbol)),
          b)
  | [], w => by simp
  | c :: t, w => by
    by_cases h : b c.2 c.1 = none
    · have hrest : setCell (setCell b c.2 c.1 (some symbol)) c.2 c.1 none = b :=
        setCell_cancel h
      by_cases hw : check_winner (setCell b c.2 c.1 (some symbol)) = some symbol
      · have hstep : iwcStep symbol (w, b) c = (w ++ [c], b) := by
          simp [iwcStep, h, hw, hrest]
        rw [List.foldl_cons, hstep, iwc_foldl symbol b t]
        simp [List.filter_cons, h, hw]
      · have hstep : iwcStep symbol (w, b) c = (w, b) := by
          simp [iwcStep, h, hw, hrest]
        rw [List.foldl_cons, hstep, iwc_foldl symbol b t]
        simp [List.filter_cons, h, hw]
    · have hstep : iwcStep symbol (w, b) c = (w, b) := by
        simp [iwcStep, h]
      rw [List.foldl_cons, hstep, iwc_foldl symbol b t]
      simp [List.filter_cons, h]

/-- C9. Computing the immediate-win-cell set leaves the board equal to its
pre-call snapshot: every trial placement is reverted, no trial leaks into
another, and the recorded set is exactly the functional
`immediate_win_cells`. -/
theorem c9_immediate_win_cells_restores (b : Board) (symbol : Mark) :
    immediate_win_cellsMut b symbol = (immediate_win_cells b symbol, b) := by
  rw [immediate_win_cellsMut, iwc_foldl symbol b allCells []]
  simp [immediate_win_cells]

/-! ### C7: shift legality -/

/-- C7. A player shift fails (returns false) iff the shifted origin would
leave `[0, BOARD_SIZE - VIEW_SIZE]` on some axis, and on failure the state
is unchanged (rejected outright, never clamped). -/
theorem c7_shift_fail_iff (cb : Int → Int → ℚ) (i j : Nat) (st : GameState)
    (m : Dir) :
    ((move_view cb i j st m).1 = false ↔ shiftIllegal st m) ∧
      (shiftIllegal st m → (move_view cb i j st m).2 = st) := by
  simp only [move_view, shiftIllegal]
  split_ifs with h
  · simp [h]
  · simp [h]

/-- Witness for C7: at the left edge, shifting left fails and leaves the
state unchanged. -/
theorem c7_witness :
    (move_view cbW 0 0 stC7 Dir.left).1 = false ∧
      (move_view cbW 0 0 stC7 Dir.left).2 = stC7 :=
  ⟨((c7_shift_fail_iff cbW 0 0 stC7 Dir.left).1).mpr
      (by unfold shiftIllegal; decide),
    (c7_shift_fail_iff cbW 0 0 stC7 Dir.left).2
      (by unfold shiftIllegal; decide)⟩

/-! ### C8: the revealed strip -/

/-- C8. For every single-axis unit shift with both origins in range,
`revealed_strip` returns exactly 3 coordinates, all inside the new viewport
and none inside the overlap of the old and new viewports; for an unchanged
origin it returns the empty list. -/
theorem c8_revealed_strip_props :
    (∀ old_x old_y new_x new_y : Int,
      ((new_y = old_y ∧ (new_x = old_x + 1 ∨ new_x = old_x - 1)) ∨
        (new_x = old_x ∧ (new_y = old_y + 1 ∨ new_y = old_y - 1))) →
      (0 ≤ old_x ∧ old_x ≤ 17 ∧ 0 ≤ old_y ∧ old_y ≤ 17) →
      (0 ≤ new_x ∧ new_x ≤ 17 ∧ 0 ≤ new_y ∧ new_y ≤ 17) →
      (revealed_strip old_x old_y new_x new_y).length = 3 ∧
        ∀ c ∈ revealed_strip old_x old_y new_x new_y,
          c ∈ viewport_cells new_x new_y ∧
            ¬(c ∈ viewport_cells old_x old_y ∧
              c ∈ viewport_cells new_x new_y)) ∧
    (∀ x y : Int, revealed_strip x y x y = []) := by
  constructor
  · intro ox oy nx ny hunit _hold _hnew
    rcases hunit with ⟨rfl, rfl | rfl⟩ | ⟨rfl, rfl | rfl⟩
    · rw [revealed_strip, if_pos (by omega)]
      refine ⟨by simp [range3], ?_⟩
      intro c hc
      simp only [range3, List.mem_map, List.mem_cons, List.not_mem_nil,
        or_false] at hc
      obtain ⟨dy, hdy, rfl⟩ := hc
      simp only [mem_viewport_cells, VIEW_SIZE]
      omega
    · rw [revealed_strip, if_neg (by omega), if_pos (by omega)]
      refine ⟨by simp [range3], ?_⟩
      intro c hc
      simp only [range3, List.mem_map, List.mem_cons, List.not_mem_nil,
        or_false] at hc
      obtain ⟨dy, hdy, rfl⟩ := hc
      simp only [mem_viewport_cells, VIEW_SIZE]
      omega
    · rw [revealed_strip, if_neg (by omega), if_neg (by omega),
        if_pos (by omega)]
      refine ⟨by simp [range3], ?_⟩
      intro c hc
      simp only [range3, List.mem_map, List.mem_cons, List.not_mem_nil,
        or_false] at hc
      obtain ⟨dx, hdx, rfl⟩ := hc
      simp only [mem_viewport_cells, VIEW_SIZE]
      omega
    · rw [revealed_strip, if_neg (by omega), if_neg (by omega),
        if_neg (by omega), if_pos (by omega)]
      refine ⟨by simp [range3], ?_⟩
      intro c hc
      simp only [range3, List.mem_map, List.mem_cons, List.not_mem_nil,
        or_false] at hc
      obtain ⟨dx, hdx, rfl⟩ := hc
      simp only [mem_viewport_cells, VIEW_SIZE]
      omega
  · intro x y
    simp [revealed_strip]

/-- Witness for C8: shifting up from (8,8) reveals exactly the top row of
the new viewport. -/
theorem c8_witness :
    (revealed_strip 8 8 8 7).length = 3 ∧
      ∀ c ∈ revealed_strip 8 8 8 7,
        c ∈ viewport_cells 8 7 ∧
          ¬(c ∈ viewport_cells 8 8 ∧ c ∈ viewport_cells 8 7) :=
  c8_revealed_strip_props.1 8 8 8 7 (Or.inr ⟨rfl, Or.inr (by norm_num)⟩)
    (by norm_num) (by norm_num)

/-! ### C6: player placement rejection -/

/-- C6. A player click is rejected with no change to any state field
whenever it is not the player's turn, the game is over, the strip is empty,
the clicked cell lies outside the strip, or the clicked cell is occupied. -/
theorem c6_rejection_no_change (cb : Int → Int → ℚ) (i j : Nat)
    (st : GameState) (pos : Int × Int)
    (h : st.current ≠ Mark.X ∨ st.game_over = true ∨ st.strip_cells = [] ∨
      click_cell st pos ∉ st.strip_cells ∨
      st.board (click_cell st pos).2 (click_cell st pos).1 ≠ none) :
    handle_player_click cb i j st pos = st := by
  simp only [handle_player_click]
  split_ifs with h1 h2 h3 h4 h5 h6
  any_goals rfl
  all_goals
    push_neg at h1
    rcases h with hx | hx | hx | hx | hx
    · exact absurd h1.1 hx
    · exact absurd hx h1.2
    · exact absurd hx h2
    · exact absurd h4 hx
    · exact absurd hx h5

/-- Witness for C6: clicking when it is the computer's turn changes nothing. -/
theorem c6_witness : handle_player_click cbW 0 0 stC6 (0, 0) = stC6 :=
  c6_rejection_no_change cbW 0 0 stC6 (0, 0) (Or.inl (by decide))

/-! ### C4: strip clearing on placement -/

/-- Counterexample to C4 as stated: clicking pixel (62,62) in `stC4` places
X at (5,3) and wins, and the handler returns with the strip still holding
its three cells — a winning placement does not clear the strip. -/
theorem c4_counterexample :
    (handle_player_click cbW 0 0 stC4 (62, 62)).board 3 5 = some Mark.X ∧
      (handle_player_click cbW 0 0 stC4 (62, 62)).game_over = true ∧
      (handle_player_click cbW 0 0 stC4 (62, 62)).strip_cells =
        [(5, 3), (5, 4), (5, 5)] := by
  refine ⟨?_, ?_, ?_⟩ <;> decide

/-- C4 amended: a placement that does not end the game clears the strip; a
placement that wins ends the game and leaves the strip exactly as it was.
This holds both for the player placement performed by the click handler
(`playerPlace`) and for the computer's stay-and-place (`applyCpuAction`). -/
theorem c4_strip_cleared_amended :
    (∀ (st : GameState) (cell : Int × Int), st.game_over = false →
      ((playerPlace st cell).game_over = false →
        (playerPlace st cell).strip_cells = []) ∧
      ((playerPlace st cell).game_over = true →
        (playerPlace st cell).strip_cells = st.strip_cells)) ∧
    (∀ (st : GameState) (p : Int × Int), st.game_over = false →
      ((applyCpuAction st (CpuAction.stay (some p))).game_over = false →
        (applyCpuAction st (CpuAction.stay (some p))).strip_cells = []) ∧
      ((applyCpuAction st (CpuAction.stay (some p))).game_over = true →
        (applyCpuAction st (CpuAction.stay (some p))).strip_cells =
          st.strip_cells)) := by
  constructor
  · intro st cell hgo
    simp only [playerPlace]
    cases hcw : check_winner (setCell st.board cell.2 cell.1 (some Mark.X)) with
    | none => simp [hgo]
    | some w => simp
  · intro st p hgo
    simp only [applyCpuAction]
    cases hcw : check_winner (setCell st.board p.2 p.1 (some Mark.O)) with
    | none => simp [hgo]
    | some w => simp

/-- Witness for the amended C4: a non-winning player placement clears the
strip. -/
theorem c4_witness : (playerPlace stC4b (8, 7)).strip_cells = [] :=
  (c4_strip_cleared_amended.1 stC4b (8, 7) (by decide)).1 (by decide)

/-! ### C10: termination of the run-counting loops -/

theorem addRunAux_stab (b : Board) (symbol : Mark) (x y ddx ddy : Int) :
    ∀ (k f1 f2 : Nat) (step : Int), k < f1 → k < f2 →
      (in_bounds (x + ddx * (step + (k : Int))) (y + ddy * (step + (k : Int))) &&
        decide (b (y + ddy * (step + (k : Int))) (x + ddx * (step + (k : Int))) =
          some symbol)) = false →
      addRunAux b symbol x y ddx ddy f1 step =
        addRunAux b symbol x y ddx ddy f2 step := by
  intro k
  induction k with
  | zero =>
    intro f1 f2 step h1 h2 hc
    rw [Int.natCast_zero, add_zero] at hc
    match f1, f2 with
    | g1 + 1, g2 + 1 =>
      rw [addRunAux, addRunAux, hc]
      simp
  | succ n ih =>
    intro f1 f2 step h1 h2 hc
    match f1, f2 with
    | g1 + 1, g2 + 1 =>
      rw [addRunAux, addRunAux]
      by_cases hcnow :
          (in_bounds (x + ddx * step) (y + ddy * step) &&
            decide (b (y + ddy * step) (x + ddx * step) = some symbol)) = true
      · rw [if_pos hcnow, if_pos hcnow]
        have harg : step + 1 + (n : Int) = step + ((n + 1 : Nat) : Int) := by
          push_cast
          ring
        have := ih g1 g2 (step + 1) (by omega) (by omega) (by rw [harg]; exact hc)
        rw [this]
      · rw [if_neg hcnow, if_neg hcnow]

theorem addRun_stab (b : Board) (symbol : Mark) (x y dx dy direction : Int)
    (fuel : Nat) (hx : in_bounds x y = true) (hdir : (dx, dy) ∈ dirs4)
    (hd : direction = 1 ∨ direction = -1) (hf : 20 ≤ fuel) :
    addRun b symbol x y dx dy direction fuel =
      addRun b symbol x y dx dy direction 20 := by
  rw [addRun, addRun]
  apply addRunAux_stab b symbol x y _ _ 19 fuel 20 1 (by omega) (by omega)
  have hxb : 0 ≤ x ∧ x < BOARD_SIZE ∧ 0 ≤ y ∧ y < BOARD_SIZE := by
    simpa only [in_bounds, decide_eq_true_eq] using hx
  have hout : in_bounds (x + dx * direction * (1 + (19 : Nat)))
      (y + dy * direction * (1 + (19 : Nat))) = false := by
    simp only [in_bounds, decide_eq_false_iff_not, not_and, not_lt, not_le]
    simp only [dirs4, List.mem_cons, List.not_mem_nil, or_false,
      Prod.mk.injEq] at hdir
    rw [BOARD_SIZE] at hxb ⊢
    rcases hdir with ⟨rfl, rfl⟩ | ⟨rfl, rfl⟩ | ⟨rfl, rfl⟩ | ⟨rfl, rfl⟩ <;>
      rcases hd with rfl | rfl <;>
      · intro h1 h2 h3
        omega
  rw [hout, Bool.false_and]

/-- C10. The unbounded run-counting loops of `line_score` terminate: for
every in-bounds start cell the loop state leaves the board within 20 steps,
so every fuel bound of at least 20 computes the same value — the fuel-20
`line_score` used by the evaluator is the limit of the Python while-loop. -/
theorem c10_line_score_fuel_stable (b : Board) (x y : Int) (symbol : Mark)
    (fuel : Nat) (hx : in_bounds x y = true) (hf : 20 ≤ fuel) :
    line_scoreF fuel b x y symbol = line_score b x y symbol := by
  rw [line_score]
  have hrw : ∀ dx dy : Int, (dx, dy) ∈ dirs4 →
      dirCount fuel b x y symbol dx dy = dirCount 20 b x y symbol dx dy := by
    intro dx dy hdir
    rw [dirCount, dirCount,
      addRun_stab b symbol x y dx dy 1 fuel hx hdir (Or.inl rfl) hf,
      addRun_stab b symbol x y dx dy (-1) fuel hx hdir (Or.inr rfl) hf]
  simp only [line_scoreF, dirs4, List.map_cons, List.map_nil]
  rw [hrw 1 0 (by simp [dirs4]), hrw 0 1 (by simp [dirs4]),
    hrw 1 1 (by simp [dirs4]), hrw 1 (-1) (by simp [dirs4])]

/-- Witness for C10: fuel 25 agrees with the fuel-20 `line_score` at an
in-bounds cell of a concrete board. -/
theorem c10_witness :
    line_scoreF 25 bRow 1 0 Mark.X = line_score bRow 1 0 Mark.X :=
  c10_line_score_fuel_stable bRow 1 0 Mark.X 25 (by decide) (by norm_num)

/-! ### C1: check_winner detects exactly the 3-runs -/

theorem winAt_iff {b : Board} {m : Mark} {x y : Int} {d : Int × Int} :
    winAt b x y m d = true ↔ runAt b m x y d.1 d.2 := by
  rw [winAt, List.all_eq_true]
  constructor
  · intro h i h0 h3
    have hi : i = 0 ∨ i = 1 ∨ i = 2 := by omega
    have hmem : i ∈ range3 := by
      rcases hi with rfl | rfl | rfl <;> simp [range3]
    have := h i hmem
    simp only [Bool.and_eq_true, decide_eq_true_eq] at this
    exact this
  · intro h i hmem
    have hi : i = 0 ∨ i = 1 ∨ i = 2 := by simpa [range3] using hmem
    simp only [Bool.and_eq_true, decide_eq_true_eq]
    exact h i (by omega) (by omega)

theorem check_winner_some_hasRun {b : Board} {m : Mark}
    (h : check_winner b = some m) : hasRun b m := by
  rw [check_winner] at h
  obtain ⟨c, hc, hfc⟩ := List.exists_of_findSome?_eq_some h
  rcases hb : b c.2 c.1 with _ | s
  · rw [hb] at hfc
    simp at hfc
  · rw [hb] at hfc
    by_cases hany : dirs4.any (fun d => winAt b c.1 c.2 s d) = true
    · simp only [hany, if_true, Option.some.injEq] at hfc
      subst hfc
      obtain ⟨d, hd, hwin⟩ := List.any_eq_true.mp hany
      exact ⟨c.1, c.2, d.1, d.2, by simpa using hd, winAt_iff.mp hwin⟩
    · simp only [Bool.not_eq_true] at hany
      simp [hany] at hfc

theorem check_winner_none_iff {b : Board} :
    check_winner b = none ↔ ∀ m, ¬hasRun b m := by
  constructor
  · intro h m hrun
    obtain ⟨x, y, dx, dy, hd, hr⟩ := hrun
    have h0 := hr 0 le_rfl (by norm_num)
    rw [zero_mul, add_zero, zero_mul, add_zero] at h0
    have hbxy : b y x = some m := h0.2
    have hbounds : 0 ≤ x ∧ x < 20 ∧ 0 ≤ y ∧ y < 20 := by
      have := h0.1
      simp only [in_bounds, BOARD_SIZE, decide_eq_true_eq] at this
      exact this
    rw [check_winner, List.findSome?_eq_none_iff] at h
    have hmem : ((x, y) : Int × Int) ∈ allCells := mem_allCells.mpr hbounds
    have hf := h (x, y) hmem
    rw [hbxy] at hf
    have hany : dirs4.any (fun d => winAt b x y m d) = true := by
      refine List.any_eq_true.mpr ⟨(dx, dy), hd, winAt_iff.mpr ?_⟩
      exact hr
    dsimp only at hf
    rw [if_pos hany] at hf
    exact Option.noConfusion hf
  · intro h
    rcases hcw : check_winner b with _ | m2
    · rfl
    · exact absurd (check_winner_some_hasRun hcw) (h m2)

/-- C1. `check_winner` returns a mark only when a 3-cell run of that mark
exists along a row, a column, or either diagonal (regardless of the other
mark's runs); it returns `none` exactly when no mark has such a run; and on
boards where at most one mark has a run (every reachable position), it
returns a mark iff that mark has a run. -/
theorem c1_check_winner_iff_run (b : Board) :
    (∀ m, check_winner b = some m → hasRun b m) ∧
      (check_winner b = none ↔ ∀ m, ¬hasRun b m) ∧
      ((∀ m1 m2, hasRun b m1 → hasRun b m2 → m1 = m2) →
        ∀ m, (check_winner b = some m ↔ hasRun b m)) := by
  refine ⟨fun m h => check_winner_some_hasRun h, check_winner_none_iff, ?_⟩
  intro huniq m
  constructor
  · exact check_winner_some_hasRun
  · intro hrun
    rcases hcw : check_winner b with _ | m2
    · exact absurd hrun (check_winner_none_iff.mp hcw m)
    · have heq := huniq m2 m (check_winner_some_hasRun hcw) hrun
      exact congrArg some heq

/-- Witness for C1: the concrete board `bRow` makes `check_winner` return X,
hence a 3-run of X exists. -/
theorem c1_witness : hasRun bRow Mark.X :=
  (c1_check_winner_iff_run bRow).1 Mark.X (by decide)

/-! ### The best-score fold: max and tied-candidate characterization -/

theorem listMaxF_cons {α : Type} (f : α → ℚ) (init : ℚ) (a : α) (l : List α) :
    listMaxF f init (a :: l) = listMaxF f (max init (f a)) l := rfl

theorem le_listMaxF {α : Type} (f : α → ℚ) :
    ∀ (l : List α) (init : ℚ), init ≤ listMaxF f init l
  | [], _ => le_refl _
  | a :: l, init =>
    le_trans (le_max_left _ _) (le_listMaxF f l (max init (f a)))

theorem mem_le_listMaxF {α : Type} (f : α → ℚ) :
    ∀ (l : List α) (init : ℚ) (x : α), x ∈ l → f x ≤ listMaxF f init l
  | [], _, x, hx => absurd hx (List.not_mem_nil x)
  | a :: l, init, x, hx => by
    rcases List.mem_cons.mp hx with rfl | hx2
    · exact le_trans (le_trans (le_max_right init (f x))
        (le_listMaxF f l (max init (f x)))) (le_of_eq rfl)
    · exact mem_le_listMaxF f l (max init (f a)) x hx2

theorem listMaxF_attained {α : Type} (f : α → ℚ) :
    ∀ (l : List α) (init : ℚ),
      listMaxF f init l = init ∨ ∃ x ∈ l, listMaxF f init l = f x
  | [], _ => Or.inl rfl
  | a :: l, init => by
    rw [listMaxF_cons]
    rcases listMaxF_attained f l (max init (f a)) with h | ⟨x, hx, hfx⟩
    · rw [h]
      rcases max_cases init (f a) with ⟨hm, -⟩ | ⟨hm, -⟩
      · exact Or.inl hm
      · exact Or.inr ⟨a, List.mem_cons_self a l, hm⟩
    · exact Or.inr ⟨x, List.mem_cons_of_mem a hx, hfx⟩

theorem amFoldl {α : Type} (f : α → ℚ) :
    ∀ (l : List α) (b : ℚ) (acc : List α),
      l.foldl (amStep f) (b, acc) =
        (listMaxF f b l,
          (if b = listMaxF f b l then acc else []) ++
            l.filter (fun x => decide (f x = listMaxF f b l)))
  | [], b, acc => by simp [listMaxF]
  | a :: l, b, acc => by
    rw [List.foldl_cons]
    rcases lt_trichotomy b (f a) with h | h | h
    · have hstep : amStep f (b, acc) a = (f a, [a]) := by
        simp [amStep, h]
      rw [hstep, amFoldl f l (f a) [a], listMaxF_cons, max_eq_right h.le]
      have hbM : b ≠ listMaxF f (f a) l :=
        ne_of_lt (lt_of_lt_of_le h (le_listMaxF f l (f a)))
      rw [if_neg hbM, List.nil_append, List.filter_cons]
      by_cases hfa : f a = listMaxF f (f a) l
      · rw [if_pos hfa, if_pos (show decide (f a = listMaxF f (f a) l) = true
          from decide_eq_true hfa)]
        rfl
      · rw [if_neg hfa,
          if_neg (show ¬(decide (f a = listMaxF f (f a) l) = true) by
            simp [hfa])]
        rfl
    · have hstep : amStep f (b, acc) a = (b, acc ++ [a]) := by
        simp [amStep, ← h]
      have hmax : max b (f a) = b := by rw [← h, max_self]
      rw [hstep, amFoldl f l b (acc ++ [a]), listMaxF_cons, hmax,
        List.filter_cons]
      by_cases hbM : b = listMaxF f b l
      · have hfa : f a = listMaxF f b l := by rw [← h]; exact hbM
        rw [if_pos hbM, if_pos hbM,
          if_pos (show decide (f a = listMaxF f b l) = true
            from decide_eq_true hfa)]
        rw [List.append_assoc]
        rfl
      · have hfa : ¬(f a = listMaxF f b l) := by rw [← h]; exact hbM
        rw [if_neg hbM, if_neg hbM,
          if_neg (show ¬(decide (f a = listMaxF f b l) = true) by
            simp [hfa])]
    · have hstep : amStep f (b, acc) a = (b, acc) := by
        have h1 : ¬(b < f a) := not_lt.mpr h.le
        have h2 : ¬(f a = b) := ne_of_lt h
        simp [amStep, h1, h2]
      rw [hstep, amFoldl f l b acc, listMaxF_cons, max_eq_left h.le,
        List.filter_cons]
      rw [if_neg (show ¬(decide (f a = listMaxF f b l) = true) by
        simp [ne_of_lt (lt_of_lt_of_le h (le_listMaxF f l b))])]

theorem argmaxF_fst {α : Type} (f : α → ℚ) (init : ℚ) (l : List α) :
    (argmaxF f init l).1 = listMaxF f init l := by
  rw [argmaxF, amFoldl]

theorem argmaxF_snd {α : Type} (f : α → ℚ) (init : ℚ) (l : List α) :
    (argmaxF f init l).2 =
      l.filter (fun x => decide (f x = listMaxF f init l)) := by
  rw [argmaxF, amFoldl]
  simp

theorem mem_argmaxF_snd {α : Type} {f : α → ℚ} {init : ℚ} {l : List α}
    {x : α} : x ∈ (argmaxF f init l).2 ↔ x ∈ l ∧ f x = listMaxF f init l := by
  rw [argmaxF_snd, List.mem_filter]
  simp

/-! ### The seeded uniform draw -/

theorem pick_mem {α : Type} {i : Nat} {l : List α} {a : α}
    (h : pick i l = some a) : a ∈ l := by
  rw [pick] at h
  obtain ⟨hlt, rfl⟩ := List.getElem?_eq_some_iff.mp h
  exact List.getElem_mem hlt

theorem pick_of_ne_nil {α : Type} (i : Nat) {l : List α} (h : l ≠ []) :
    ∃ a, pick i l = some a ∧ a ∈ l := by
  have hlen : 0 < l.length := List.length_pos.mpr h
  have hmod : i % l.length < l.length := Nat.mod_lt i hlen
  exact ⟨l[i % l.length], by rw [pick]; exact List.getElem?_eq_getElem hmod,
    List.getElem_mem hmod⟩

theorem pick_singleton {α : Type} (i : Nat) (a : α) : pick i [a] = some a := by
  rw [pick]
  simp [Nat.mod_one]

/-! ### Score bounds -/

theorem addRunAux_le (b : Board) (symbol : Mark) (x y ddx ddy : Int) :
    ∀ (fuel : Nat) (step : Int),
      addRunAux b symbol x y ddx ddy fuel step ≤ fuel
  | 0, _ => le_refl 0
  | fuel + 1, step => by
    rw [addRunAux]
    split_ifs
    · have := addRunAux_le b symbol x y ddx ddy fuel (step + 1)
      omega
    · omega

theorem dirCount_le (fuel : Nat) (b : Board) (x y : Int) (symbol : Mark)
    (dx dy : Int) : dirCount fuel b x y symbol dx dy ≤ 1 + 2 * fuel := by
  rw [dirCount, addRun, addRun]
  have h1 := addRunAux_le b symbol x y (dx * 1) (dy * 1) fuel 1
  have h2 := addRunAux_le b symbol x y (dx * -1) (dy * -1) fuel 1
  omega

theorem dirCount_pos (fuel : Nat) (b : Board) (x y : Int) (symbol : Mark)
    (dx dy : Int) : 1 ≤ dirCount fuel b x y symbol dx dy := by
  rw [dirCount]
  omega

theorem line_score_le (b : Board) (x y : Int) (symbol : Mark) :
    line_score b x y symbol ≤ 6724 := by
  have h : ∀ dx dy : Int,
      dirCount 20 b x y symbol dx dy * dirCount 20 b x y symbol dx dy ≤ 1681 := by
    intro dx dy
    have := dirCount_le 20 b x y symbol dx dy
    calc dirCount 20 b x y symbol dx dy * dirCount 20 b x y symbol dx dy
        ≤ 41 * 41 := Nat.mul_le_mul (by omega) (by omega)
      _ = 1681 := by norm_num
  have h1 := h 1 0
  have h2 := h 0 1
  have h3 := h 1 1
  have h4 := h 1 (-1)
  rw [line_score]
  simp only [line_scoreF, dirs4, List.map_cons, List.map_nil, List.sum_cons,
    List.sum_nil]
  omega

theorem line_score_ge (b : Board) (x y : Int) (symbol : Mark) :
    4 ≤ line_score b x y symbol := by
  have h : ∀ dx dy : Int,
      1 ≤ dirCount 20 b x y symbol dx dy * dirCount 20 b x y symbol dx dy := by
    intro dx dy
    have := dirCount_pos 20 b x y symbol dx dy
    calc (1 : Nat) = 1 * 1 := by norm_num
      _ ≤ dirCount 20 b x y symbol dx dy * dirCount 20 b x y symbol dx dy :=
        Nat.mul_le_mul (by omega) (by omega)
  have h1 := h 1 0
  have h2 := h 0 1
  have h3 := h 1 1
  have h4 := h 1 (-1)
  rw [line_score]
  simp only [line_scoreF, dirs4, List.map_cons, List.map_nil, List.sum_cons,
    List.sum_nil]
  omega

theorem placeScore_win {cb : Int → Int → ℚ} {b : Board}
    {pw : List (Int × Int)} {p : Int × Int}
    (hwin : check_winner (setCell b p.2 p.1 (some Mark.O)) = some Mark.O) :
    placeScore cb b pw p = 1000000 := by
  rw [placeScore, if_pos hwin]

theorem placeScore_le {cb : Int → Int → ℚ} {b : Board} {pw : List (Int × Int)}
    {p : Int × Int} (hcb : cb p.1 p.2 ≤ 0) :
    placeScore cb b pw p ≤ 1000000 := by
  rw [placeScore]
  split_ifs with h1 h2
  · norm_num
  all_goals {
    have hO : (line_score (setCell b p.2 p.1 (some Mark.O)) p.1 p.2 Mark.O : ℚ)
        ≤ 6724 := by exact_mod_cast line_score_le _ _ _ _
    have hX : (line_score (setCell b p.2 p.1 (some Mark.O)) p.1 p.2 Mark.X : ℚ)
        ≤ 6724 := by exact_mod_cast line_score_le _ _ _ _
    linarith
  }

theorem placeScore_nonwin_nonblock_le {cb : Int → Int → ℚ} {b : Board}
    {pw : List (Int × Int)} {p : Int × Int}
    (hnw : ¬(check_winner (setCell b p.2 p.1 (some Mark.O)) = some Mark.O))
    (hnb : p ∉ pw) (hcb : cb p.1 p.2 ≤ 0) :
    placeScore cb b pw p ≤ 73964 := by
  rw [placeScore, if_neg hnw, if_neg hnb]
  have hO : (line_score (setCell b p.2 p.1 (some Mark.O)) p.1 p.2 Mark.O : ℚ)
      ≤ 6724 := by exact_mod_cast line_score_le _ _ _ _
  have hX : (line_score (setCell b p.2 p.1 (some Mark.O)) p.1 p.2 Mark.X : ℚ)
      ≤ 6724 := by exact_mod_cast line_score_le _ _ _ _
  linarith

theorem placeScore_block_ge {cb : Int → Int → ℚ} {b : Board}
    {pw : List (Int × Int)} {p : Int × Int}
    (hnw : ¬(check_winner (setCell b p.2 p.1 (some Mark.O)) = some Mark.O))
    (hb : p ∈ pw) (hcb : -14 ≤ cb p.1 p.2) :
    199974 ≤ placeScore cb b pw p := by
  rw [placeScore, if_neg hnw, if_pos hb]
  have hO : (4 : ℚ)
      ≤ (line_score (setCell b p.2 p.1 (some Mark.O)) p.1 p.2 Mark.O : ℚ) := by
    exact_mod_cast line_score_ge _ _ _ _
  have hX : (4 : ℚ)
      ≤ (line_score (setCell b p.2 p.1 (some Mark.O)) p.1 p.2 Mark.X : ℚ) := by
    exact_mod_cast line_score_ge _ _ _ _
  linarith

/-! ### Characterizations of membership in the evaluator's sets -/

theorem mem_empty_cells {b : Board} {cells : List (Int × Int)}
    {c : Int × Int} : c ∈ empty_cells b cells ↔ c ∈ cells ∧ b c.2 c.1 = none := by
  rw [empty_cells, List.mem_filter]
  simp

theorem mem_immediate_win_cells {b : Board} {s : Mark} {c : Int × Int} :
    c ∈ immediate_win_cells b s ↔
      (0 ≤ c.1 ∧ c.1 < 20 ∧ 0 ≤ c.2 ∧ c.2 < 20) ∧ b c.2 c.1 = none ∧
        check_winner (setCell b c.2 c.1 (some s)) = some s := by
  rw [immediate_win_cells, List.mem_filter]
  simp only [Bool.and_eq_true, decide_eq_true_eq, mem_allCells]

theorem filter_eq_singleton {α : Type} {p : α → Bool} {a : α} :
    ∀ {l : List α}, l.Nodup → a ∈ l → (∀ x ∈ l, p x = true ↔ x = a) →
      l.filter p = [a]
  | [], _, ha, _ => absurd ha (List.not_mem_nil a)
  | c :: t, hnd, ha, hiff => by
    obtain ⟨hct, hndt⟩ := List.nodup_cons.mp hnd
    rcases List.mem_cons.mp ha with rfl | hat
    · rw [List.filter_cons,
        if_pos ((hiff a (List.mem_cons_self a t)).mpr rfl)]
      have ht : t.filter p = [] := by
        rw [List.filter_eq_nil_iff]
        intro x hx hpx
        have := (hiff x (List.mem_cons_of_mem a hx)).mp hpx
        exact hct (this ▸ hx)
      rw [ht]
    · have hca : ¬(p c = true) := by
        intro hpc
        have := (hiff c (List.mem_cons_self c t)).mp hpc
        exact hct (this ▸ hat)
      rw [List.filter_cons, if_neg hca]
      exact filter_eq_singleton hndt hat
        (fun x hx => hiff x (List.mem_cons_of_mem c hx))

/-- When the stay score is positive and the bias model is nonpositive (as
the real one is), every shift scores nonpositively, so the pooled candidate
list of `cpu_take_turn` is exactly the stay action. -/
theorem candidates_stay_singleton (cb : Int → Int → ℚ) (st : GameState)
    (sc : ℚ) (sp : Option (Int × Int)) (hcb0 : ∀ x y, cb x y ≤ 0)
    (hpos : 0 < sc) : candidatesFor cb st sc sp = [CpuAction.stay sp] := by
  have hstay_mem : CpuAction.stay sp ∈ cpuActions cb st sp :=
    List.mem_cons_self _ _
  have hall_le : ∀ a ∈ cpuActions cb st sp, actionScore cb sc a ≤ sc := by
    intro a _
    cases a with
    | stay q => exact le_of_eq rfl
    | move v =>
      show cb (v.1 + 1) (v.2 + 1) * 5 ≤ sc
      have := hcb0 (v.1 + 1) (v.2 + 1)
      linarith
  have hM : listMaxF (actionScore cb sc) NEG_INF (cpuActions cb st sp) = sc := by
    apply le_antisymm
    · rcases listMaxF_attained (actionScore cb sc) (cpuActions cb st sp)
        NEG_INF with h | ⟨a, ha, hfa⟩
      · rw [h, NEG_INF]
        linarith
      · rw [hfa]
        exact hall_le a ha
    · exact mem_le_listMaxF (actionScore cb sc) (cpuActions cb st sp)
        NEG_INF _ hstay_mem
  rw [candidatesFor, argmaxF_snd, hM, cpuActions, List.filter_cons,
    if_pos (decide_eq_true
      (show actionScore cb sc (CpuAction.stay sp) = sc from rfl))]
  have hmoves : (moveActions cb st).filter
      (fun a => decide (actionScore cb sc a = sc)) = [] := by
    rw [moveActions, List.filter_eq_nil_iff]
    intro a ha
    obtain ⟨m, hm, rfl⟩ := List.mem_map.mp ha
    simp only [decide_eq_true_eq]
    intro heq
    have h0 := hcb0 ((evaluate_move cb st.board m st.view_x st.view_y).2.1 + 1)
      ((evaluate_move cb st.board m st.view_x st.view_y).2.2 + 1)
    have heq2 : cb ((evaluate_move cb st.board m st.view_x st.view_y).2.1 + 1)
        ((evaluate_move cb st.board m st.view_x st.view_y).2.2 + 1) * 5 = sc :=
      heq
    linarith
  rw [hmoves]

/-! ### C2: an immediately winning placement is always selected -/

/-- C2. If some empty strip cell would make `check_winner` report the
computer as winner, then the stay score is exactly 1,000,000 and, whatever
the two random draws do, the selected action is a stay-and-place on a cell
that wins immediately — never a shift and never a non-winning placement. -/
theorem c2_winning_placement_selected (cb : Int → Int → ℚ) (st : GameState)
    (w : Int × Int) (hcb : cbOK cb)
    (hw : w ∈ empty_cells st.board st.strip_cells)
    (hwin : check_winner (setCell st.board w.2 w.1 (some Mark.O)) =
      some Mark.O) :
    (stayEval cb st.board st.strip_cells).1 = 1000000 ∧
      ∀ i j : Nat, ∃ c : Int × Int,
        cpuChosenAction cb i j st = some (CpuAction.stay (some c)) ∧
          check_winner (setCell st.board c.2 c.1 (some Mark.O)) =
            some Mark.O := by
  obtain ⟨hcb0, hcb14⟩ := hcb
  have hstrip_ne : st.strip_cells ≠ [] := by
    intro h
    rw [h] at hw
    simp [empty_cells] at hw
  have hemp_ne : empty_cells st.board st.strip_cells ≠ [] :=
    List.ne_nil_of_mem hw
  have hstay : stayEval cb st.board st.strip_cells =
      argmaxF (placeScore cb st.board (immediate_win_cells st.board Mark.X))
        NEG_INF (empty_cells st.board st.strip_cells) := by
    rw [stayEval, if_neg hstrip_ne, if_neg hemp_ne]
  have hMw : placeScore cb st.board (immediate_win_cells st.board Mark.X) w =
      1000000 := placeScore_win hwin
  have hM : listMaxF
      (placeScore cb st.board (immediate_win_cells st.board Mark.X)) NEG_INF
      (empty_cells st.board st.strip_cells) = 1000000 := by
    apply le_antisymm
    · rcases listMaxF_attained
        (placeScore cb st.board (immediate_win_cells st.board Mark.X))
        (empty_cells st.board st.strip_cells) NEG_INF with h | ⟨p, hp, hMp⟩
      · rw [h, NEG_INF]
        norm_num
      · rw [hMp]
        exact placeScore_le (hcb0 p.1 p.2)
    · have := mem_le_listMaxF
        (placeScore cb st.board (immediate_win_cells st.board Mark.X))
        (empty_cells st.board st.strip_cells) NEG_INF w hw
      rw [hMw] at this
      exact this
  have hsc : (stayEval cb st.board st.strip_cells).1 = 1000000 := by
    rw [hstay, argmaxF_fst, hM]
  refine ⟨hsc, ?_⟩
  intro i j
  have hwmem : w ∈ (stayEval cb st.board st.strip_cells).2 := by
    rw [hstay]
    exact mem_argmaxF_snd.mpr ⟨hw, by rw [hMw, hM]⟩
  obtain ⟨p, hpick, hpmem⟩ :=
    pick_of_ne_nil i (List.ne_nil_of_mem hwmem)
  have hpM : placeScore cb st.board (immediate_win_cells st.board Mark.X) p =
      1000000 := by
    rw [hstay] at hpmem
    have := (mem_argmaxF_snd.mp hpmem).2
    rw [hM] at this
    exact this
  have hpwin : check_winner (setCell st.board p.2 p.1 (some Mark.O)) =
      some Mark.O := by
    by_contra hnw
    have hple : placeScore cb st.board (immediate_win_cells st.board Mark.X) p
        ≤ 73964 ∨ placeScore cb st.board (immediate_win_cells st.board Mark.X)
          p < 1000000 := by
      rw [placeScore, if_neg hnw]
      right
      have hO : (line_score (setCell st.board p.2 p.1 (some Mark.O)) p.1 p.2
          Mark.O : ℚ) ≤ 6724 := by exact_mod_cast line_score_le _ _ _ _
      have hX : (line_score (setCell st.board p.2 p.1 (some Mark.O)) p.1 p.2
          Mark.X : ℚ) ≤ 6724 := by exact_mod_cast line_score_le _ _ _ _
      have hcbp := hcb0 p.1 p.2
      split_ifs <;> linarith
    rcases hple with h | h <;> rw [hpM] at h <;> linarith
  refine ⟨p, ?_, hpwin⟩
  rw [cpuChosenAction, hpick,
    candidates_stay_singleton cb st (stayEval cb st.board st.strip_cells).1
      (some p) hcb0 (by rw [hsc]; norm_num),
    pick_singleton]

/-- Witness for C2: with O at (0,0) and (1,0) and the strip containing the
completing cell (2,0), the computer's chosen action (seeds 0, 0) is a
winning stay-and-place. -/
theorem c2_witness :
    ∃ c : Int × Int,
      cpuChosenAction cbW 0 0 stC2 = some (CpuAction.stay (some c)) ∧
        check_winner (setCell stC2.board c.2 c.1 (some Mark.O)) =
          some Mark.O :=
  (c2_winning_placement_selected cbW stC2 (2, 0)
    ⟨fun _ _ => by norm_num [cbW], fun _ _ _ _ _ _ => by norm_num [cbW]⟩
    (by decide) (by decide)).2 0 0

/-! ### C3: the lone blocking cell is always selected -/

/-- C3. If the computer has no immediately winning placement among the empty
strip cells and exactly one empty strip cell completes a player line, then
whatever the two random draws do the chosen action is the stay-and-place on
that blocking cell: the 200,000 bonus dominates every combination of
line-score and center-bias terms available to the other placements, and the
blocking score dominates every shift. -/
theorem c3_blocking_cell_selected (cb : Int → Int → ℚ) (st : GameState)
    (bc : Int × Int) (hcb : cbOK cb) (hstrip : stripOK st)
    (hnd : st.strip_cells.Nodup)
    (hbc : bc ∈ empty_cells st.board st.strip_cells)
    (hbcX : check_winner (setCell st.board bc.2 bc.1 (some Mark.X)) =
      some Mark.X)
    (huniq : ∀ c ∈ empty_cells st.board st.strip_cells,
      check_winner (setCell st.board c.2 c.1 (some Mark.X)) = some Mark.X →
        c = bc)
    (hnoO : ∀ c ∈ empty_cells st.board st.strip_cells,
      check_winner (setCell st.board c.2 c.1 (some Mark.O)) ≠ some Mark.O) :
    ∀ i j : Nat,
      cpuChosenAction cb i j st = some (CpuAction.stay (some bc)) := by
  obtain ⟨hcb0, hcb14⟩ := hcb
  have hbc_strip := mem_empty_cells.mp hbc
  have hbounds := hstrip bc hbc_strip.1
  simp only [BOARD_SIZE] at hbounds
  have hbc_pw : bc ∈ immediate_win_cells st.board Mark.X :=
    mem_immediate_win_cells.mpr ⟨hbounds, hbc_strip.2, hbcX⟩
  have hscore_bc :
      199974 ≤ placeScore cb st.board (immediate_win_cells st.board Mark.X)
        bc :=
    placeScore_block_ge (hnoO bc hbc) hbc_pw
      (hcb14 bc.1 bc.2 hbounds.1 (by simp only [BOARD_SIZE]; exact hbounds.2.1)
        hbounds.2.2.1 (by simp only [BOARD_SIZE]; exact hbounds.2.2.2))
  have hscore_other : ∀ p ∈ empty_cells st.board st.strip_cells, p ≠ bc →
      placeScore cb st.board (immediate_win_cells st.board Mark.X) p ≤
        73964 := by
    intro p hp hne
    have hp_not_pw : p ∉ immediate_win_cells st.board Mark.X := by
      intro hppw
      obtain ⟨-, -, hcompl⟩ := mem_immediate_win_cells.mp hppw
      exact hne (huniq p hp hcompl)
    exact placeScore_nonwin_nonblock_le (hnoO p hp) hp_not_pw (hcb0 p.1 p.2)
  have hstrip_ne : st.strip_cells ≠ [] := by
    intro h
    rw [h] at hbc
    simp [empty_cells] at hbc
  have hemp_ne : empty_cells st.board st.strip_cells ≠ [] :=
    List.ne_nil_of_mem hbc
  have hM : listMaxF
      (placeScore cb st.board (immediate_win_cells st.board Mark.X)) NEG_INF
      (empty_cells st.board st.strip_cells) =
      placeScore cb st.board (immediate_win_cells st.board Mark.X) bc := by
    apply le_antisymm
    · rcases listMaxF_attained
        (placeScore cb st.board (immediate_win_cells st.board Mark.X))
        (empty_cells st.board st.strip_cells) NEG_INF with h | ⟨p, hp, hMp⟩
      · rw [h, NEG_INF]
        linarith
      · rw [hMp]
        by_cases hpe : p = bc
        · rw [hpe]
        · have := hscore_other p hp hpe
          linarith
    · exact mem_le_listMaxF _ _ _ bc hbc
  have hempties_nd : (empty_cells st.board st.strip_cells).Nodup :=
    List.Nodup.filter _ hnd
  have hpl : (stayEval cb st.board st.strip_cells).2 = [bc] := by
    rw [stayEval, if_neg hstrip_ne, if_neg hemp_ne, argmaxF_snd]
    apply filter_eq_singleton hempties_nd hbc
    intro x hx
    simp only [decide_eq_true_eq]
    constructor
    · intro hpx
      by_contra hne
      have := hscore_other x hx hne
      rw [hM] at hpx
      linarith
    · rintro rfl
      exact hM.symm
  have hsc : (stayEval cb st.board st.strip_cells).1 =
      placeScore cb st.board (immediate_win_cells st.board Mark.X) bc := by
    rw [stayEval, if_neg hstrip_ne, if_neg hemp_ne, argmaxF_fst, hM]
  intro i j
  rw [cpuChosenAction, hpl, pick_singleton i bc,
    candidates_stay_singleton cb st (stayEval cb st.board st.strip_cells).1
      (some bc) hcb0 (by rw [hsc]; linarith),
    pick_singleton]

/-- Witness for C3: X threatens at (3,3)-(4,3), the strip holds the single
blocking cell (5,3), and the computer (seeds 0, 0) selects exactly that
stay-and-place. -/
theorem c3_witness :
    cpuChosenAction cbW 0 0 stC3 = some (CpuAction.stay (some (5, 3))) :=
  c3_blocking_cell_selected cbW stC3 (5, 3)
    ⟨fun _ _ => by norm_num [cbW], fun _ _ _ _ _ _ => by norm_num [cbW]⟩
    (by unfold stripOK; decide) (by decide) (by decide) (by decide)
    (by decide) (by decide) 0 0

/-! ### Further list lemmas for the pooled-draw analysis -/

theorem listMaxF_congr {α : Type} {f g : α → ℚ} :
    ∀ {l : List α} {init : ℚ}, (∀ x ∈ l, f x = g x) →
      listMaxF f init l = listMaxF g init l
  | [], _, _ => rfl
  | a :: l, init, h => by
    rw [listMaxF_cons, listMaxF_cons, h a (List.mem_cons_self a l),
      listMaxF_congr (fun x hx => h x (List.mem_cons_of_mem a hx))]

theorem listMaxF_append {α : Type} (f : α → ℚ) (init : ℚ) (l1 l2 : List α) :
    listMaxF f init (l1 ++ l2) = listMaxF f (listMaxF f init l1) l2 := by
  rw [listMaxF, listMaxF, listMaxF, List.foldl_append]

theorem listMaxF_map {α β : Type} (f : β → ℚ) (g : α → β) (init : ℚ)
    (l : List α) :
    listMaxF f init (l.map g) = listMaxF (fun x => f (g x)) init l := by
  rw [listMaxF, listMaxF, List.foldl_map]

theorem listMaxF_of_le {α : Type} {f : α → ℚ} :
    ∀ {l : List α} {init : ℚ}, (∀ x ∈ l, f x ≤ init) →
      listMaxF f init l = init
  | [], _, _ => rfl
  | a :: l, init, h => by
    rw [listMaxF_cons, max_eq_left (h a (List.mem_cons_self a l)),
      listMaxF_of_le (fun x hx => h x (List.mem_cons_of_mem a hx))]

theorem filter_map_comm {α β : Type} (g : α → β) (p : β → Bool) :
    ∀ l : List α, (l.map g).filter p = (l.filter (fun x => p (g x))).map g
  | [] => rfl
  | a :: l => by
    rw [List.map_cons, List.filter_cons, List.filter_cons]
    by_cases h : p (g a) = true
    · rw [if_pos h, if_pos h, List.map_cons, filter_map_comm g p l]
    · rw [if_neg h, if_neg h, filter_map_comm g p l]

theorem flatMap_singleton_map {α β : Type} (g : α → β) :
    ∀ l : List α, (l.flatMap fun x => [g x]) = l.map g
  | [] => rfl
  | a :: l => by
    rw [List.flatMap_cons, List.map_cons, flatMap_singleton_map g l,
      List.singleton_append]

theorem length_flatMap_const {α β : Type} (c : List β) :
    ∀ l : List α, (l.flatMap fun _ => c).length = l.length * c.length
  | [] => by simp
  | a :: l => by
    rw [List.flatMap_cons, List.length_append, length_flatMap_const c l,
      List.length_cons]
    ring

theorem count_flatMap_const (c : List CpuAction) (a : CpuAction) :
    ∀ l : List (Int × Int),
      (l.flatMap fun _ => c).count a = l.length * c.count a
  | [] => by simp
  | p :: l => by
    rw [List.flatMap_cons, List.count_append, count_flatMap_const c a l,
      List.length_cons]
    ring

theorem probList_nodup {l : List CpuAction} (hnd : l.Nodup) (a : CpuAction) :
    probList l a = if a ∈ l then (1 : ℚ) / l.length else 0 := by
  rw [probList]
  by_cases h : a ∈ l
  · rw [if_pos h, List.count_eq_one_of_mem hnd h]
    norm_num
  · rw [if_neg h, List.count_eq_zero_of_not_mem h]
    norm_num

/-- On the empty board a single hypothetical mark can never complete a
3-run, so there are no immediate win cells. -/
theorem iwc_bEmpty (m : Mark) : immediate_win_cells bEmpty m = [] := by
  rw [immediate_win_cells, List.filter_eq_nil_iff]
  intro c _
  suffices h : ¬(check_winner (setCell bEmpty c.2 c.1 (some m)) = some m) by
    simp [h]
  intro hcw
  obtain ⟨x, y, dx, dy, hd, hr⟩ := check_winner_some_hasRun hcw
  have key : ∀ Y X : Int, setCell bEmpty c.2 c.1 (some m) Y X = some m →
      Y = c.2 ∧ X = c.1 := by
    intro Y X h
    by_contra hne
    simp only [setCell] at h
    rw [if_neg hne] at h
    simp [bEmpty] at h
  have h0 := key _ _ (hr 0 (by norm_num) (by norm_num)).2
  have h1 := key _ _ (hr 1 (by norm_num) (by norm_num)).2
  simp only [dirs4, List.mem_cons, List.not_mem_nil, or_false,
    Prod.mk.injEq] at hd
  rcases hd with ⟨he1, he2⟩ | ⟨he1, he2⟩ | ⟨he1, he2⟩ | ⟨he1, he2⟩ <;> omega

/-! ### Shape of the pooled candidate list -/

/-- When every shift scores strictly below the stay score, the candidate
list is exactly the stay action. -/
theorem candidatesFor_stay_only (cb : Int → Int → ℚ) (st : GameState)
    (sc : ℚ) (sp : Option (Int × Int)) (hne : NEG_INF ≤ sc)
    (hgt : ∀ x ∈ moveActions cb st, actionScore cb sc x < sc) :
    candidatesFor cb st sc sp = [CpuAction.stay sp] := by
  have hstay_mem : CpuAction.stay sp ∈ cpuActions cb st sp :=
    List.mem_cons_self _ _
  have hM : listMaxF (actionScore cb sc) NEG_INF (cpuActions cb st sp) = sc := by
    apply le_antisymm
    · rcases listMaxF_attained (actionScore cb sc) (cpuActions cb st sp)
        NEG_INF with h | ⟨a, ha, hfa⟩
      · rw [h]
        exact hne
      · rw [hfa]
        rcases List.mem_cons.mp ha with rfl | hmv
        · exact le_of_eq rfl
        · exact (hgt a hmv).le
    · exact mem_le_listMaxF (actionScore cb sc) (cpuActions cb st sp)
        NEG_INF _ hstay_mem
  rw [candidatesFor, argmaxF_snd, hM, cpuActions, List.filter_cons,
    if_pos (decide_eq_true
      (show actionScore cb sc (CpuAction.stay sp) = sc from rfl))]
  have hmoves : (moveActions cb st).filter
      (fun a => decide (actionScore cb sc a = sc)) = [] := by
    rw [List.filter_eq_nil_iff]
    intro a ha
    simp only [decide_eq_true_eq]
    exact ne_of_lt (hgt a ha)
  rw [hmoves]

/-- When some shift scores strictly above the stay score, the candidate
list is exactly the set of shifts tied at the shift maximum — independent
of the stay payload. -/
theorem candidatesFor_moves_only (cb : Int → Int → ℚ) (st : GameState)
    (sc : ℚ) (sp : Option (Int × Int)) (hne : NEG_INF ≤ sc)
    (hlt : sc < listMaxF (actionScore cb sc) sc (moveActions cb st)) :
    candidatesFor cb st sc sp =
      (moveActions cb st).filter (fun x =>
        decide (actionScore cb sc x =
          listMaxF (actionScore cb sc) sc (moveActions cb st))) := by
  have hM : listMaxF (actionScore cb sc) NEG_INF (cpuActions cb st sp) =
      listMaxF (actionScore cb sc) sc (moveActions cb st) := by
    rw [cpuActions, listMaxF_cons]
    have h1 : max NEG_INF (actionScore cb sc (CpuAction.stay sp)) = sc := by
      show max NEG_INF sc = sc
      exact max_eq_right hne
    rw [h1]
  rw [candidatesFor, argmaxF_snd, hM, cpuActions, List.filter_cons,
    if_neg (show ¬(decide (actionScore cb sc (CpuAction.stay sp) =
        listMaxF (actionScore cb sc) sc (moveActions cb st)) = true) by
      simp only [decide_eq_true_eq]
      exact fun hh => absurd hh (ne_of_lt hlt))]

/-! ### The spec's pooled tied set has no duplicates -/

theorem move_payload_inj (cb : Int → Int → ℚ) (b : Board) (vx vy : Int) :
    ∀ m1 m2 : Dir,
      CpuAction.move (evaluate_move cb b m1 vx vy).2 =
        CpuAction.move (evaluate_move cb b m2 vx vy).2 → m1 = m2 := by
  intro m1 m2 h
  cases m1 <;> cases m2 <;> (try rfl) <;>
    (exfalso
     simp only [evaluate_move, delta, CpuAction.move.injEq,
       Prod.mk.injEq] at h
     omega)

theorem moveActions_nodup (cb : Int → Int → ℚ) (st : GameState) :
    (moveActions cb st).Nodup := by
  rw [moveActions]
  apply List.Nodup.map_on
  · intro m1 _ m2 _ h
    exact move_payload_inj cb st.board st.view_x st.view_y m1 m2 h
  · exact List.Nodup.filter _ (by decide)

theorem specActions_nodup (cb : Int → Int → ℚ) (st : GameState)
    (hnd : st.strip_cells.Nodup) : (specActions cb st).Nodup := by
  rw [specActions]
  apply List.Nodup.append
  · split_ifs with hcase
    · simp
    · refine List.Nodup.map ?_ (List.Nodup.filter _ hnd)
      intro p q h
      simpa using h
  · exact moveActions_nodup cb st
  · intro a ha hb
    rw [moveActions] at hb
    obtain ⟨m, -, heq⟩ := List.mem_map.mp hb
    split_ifs at ha with hcase
    · simp only [List.mem_singleton] at ha
      rw [ha] at heq
      simp at heq
    · obtain ⟨p, -, hpa⟩ := List.mem_map.mp ha
      rw [← hpa] at heq
      simp at heq

theorem specPooledTied_nodup (cb : Int → Int → ℚ) (st : GameState)
    (hnd : st.strip_cells.Nodup) : (specPooledTied cb st).Nodup :=
  List.Nodup.filter _ (specActions_nodup cb st hnd)

theorem placeScore_ge {cb : Int → Int → ℚ} {b : Board}
    {pw : List (Int × Int)} {p : Int × Int} (hcb : -14 ≤ cb p.1 p.2) :
    -26 ≤ placeScore cb b pw p := by
  rw [placeScore]
  split_ifs with h1 h2
  · norm_num
  all_goals {
    have hO : (4 : ℚ)
        ≤ (line_score (setCell b p.2 p.1 (some Mark.O)) p.1 p.2 Mark.O : ℚ) := by
      exact_mod_cast line_score_ge _ _ _ _
    have hX : (4 : ℚ)
        ≤ (line_score (setCell b p.2 p.1 (some Mark.O)) p.1 p.2 Mark.X : ℚ) := by
      exact_mod_cast line_score_ge _ _ _ _
    linarith
  }

/-- The code's two-stage draw produces, outcome for outcome, the same
distribution as a single uniform draw over the spec's pooled tied set,
provided no shift score ties the stay score exactly (true of the real
center-bias values, whose placement and shift scores can never coincide). -/
theorem cpuOutcomes_prob_eq_spec (cb : Int → Int → ℚ) (st : GameState)
    (hcb : cbOK cb) (hstrip : stripOK st)
    (hnotie : ∀ m ∈ legalMoves st.view_x st.view_y,
      (stayEval cb st.board st.strip_cells).1 ≠
        (evaluate_move cb st.board m st.view_x st.view_y).1) :
    ∀ a, probList (cpuOutcomes cb st) a = probList (specPooledTied cb st) a := by
  obtain ⟨hcb0, hcb14⟩ := hcb
  intro a
  by_cases hsent : st.strip_cells = [] ∨ empty_cells st.board st.strip_cells = []
  · -- sentinel regimes: the candidate list and the spec's tied pool coincide
    have hpl : (stayEval cb st.board st.strip_cells).2 = [] := by
      by_cases hs : st.strip_cells = []
      · rw [stayEval, if_pos hs]
      · rw [stayEval, if_neg hs, if_pos (hsent.resolve_left hs)]
    have hsc_sent : specScore cb st (CpuAction.stay none) =
        (stayEval cb st.board st.strip_cells).1 := by
      by_cases hs : st.strip_cells = []
      · simp [specScore, stayEval, hs]
      · have hemp := hsent.resolve_left hs
        simp [specScore, stayEval, hs, hemp]
    have hacts : specActions cb st = cpuActions cb st none := by
      rw [specActions, if_pos hsent, cpuActions, List.singleton_append]
    have hsame : ∀ x ∈ cpuActions cb st none, specScore cb st x =
        actionScore cb (stayEval cb st.board st.strip_cells).1 x := by
      intro x hx
      rcases List.mem_cons.mp hx with rfl | hmv
      · exact hsc_sent
      · rw [moveActions] at hmv
        obtain ⟨m, -, rfl⟩ := List.mem_map.mp hmv
        rfl
    have heq : cpuOutcomes cb st = specPooledTied cb st := by
      rw [cpuOutcomes, if_pos hpl, specPooledTied, hacts, candidatesFor,
        argmaxF_snd, listMaxF_congr hsame]
      apply List.filter_congr
      intro x hx
      rw [hsame x hx]
    rw [heq]
  · -- main regime: the strip has empty cells
    push_neg at hsent
    obtain ⟨hstrip_ne, hemp_ne⟩ := hsent
    have hstay : stayEval cb st.board st.strip_cells =
        argmaxF (placeScore cb st.board (immediate_win_cells st.board Mark.X))
          NEG_INF (empty_cells st.board st.strip_cells) := by
      rw [stayEval, if_neg hstrip_ne, if_neg hemp_ne]
    have hMs : (stayEval cb st.board st.strip_cells).1 =
        listMaxF (placeScore cb st.board (immediate_win_cells st.board Mark.X))
          NEG_INF (empty_cells st.board st.strip_cells) := by
      rw [hstay, argmaxF_fst]
    have hpl_eq : (stayEval cb st.board st.strip_cells).2 =
        (empty_cells st.board st.strip_cells).filter (fun p =>
          decide (placeScore cb st.board (immediate_win_cells st.board Mark.X)
            p = listMaxF
              (placeScore cb st.board (immediate_win_cells st.board Mark.X))
              NEG_INF (empty_cells st.board st.strip_cells))) := by
      rw [hstay, argmaxF_snd]
    have hps_lb : ∀ p ∈ empty_cells st.board st.strip_cells,
        -26 ≤ placeScore cb st.board (immediate_win_cells st.board Mark.X)
          p := by
      intro p hp
      have hb := hstrip p (mem_empty_cells.mp hp).1
      exact placeScore_ge (hcb14 p.1 p.2 hb.1 hb.2.1 hb.2.2.1 hb.2.2.2)
    have hpl_ne : (stayEval cb st.board st.strip_cells).2 ≠ [] := by
      rw [hpl_eq]
      rcases listMaxF_attained
        (placeScore cb st.board (immediate_win_cells st.board Mark.X))
        (empty_cells st.board st.strip_cells) NEG_INF with h | ⟨p, hp, hMp⟩
      · exfalso
        obtain ⟨p0, hp0⟩ := List.exists_mem_of_ne_nil _ hemp_ne
        have h1 := hps_lb p0 hp0
        have h2 := mem_le_listMaxF
          (placeScore cb st.board (immediate_win_cells st.board Mark.X))
          (empty_cells st.board st.strip_cells) NEG_INF p0 hp0
        rw [h, NEG_INF] at h2
        linarith
      · exact List.ne_nil_of_mem
          (List.mem_filter.mpr ⟨hp, decide_eq_true hMp.symm⟩)
    have hout : cpuOutcomes cb st =
        ((stayEval cb st.board st.strip_cells).2).flatMap
          (fun p => candidatesFor cb st
            (stayEval cb st.board st.strip_cells).1 (some p)) := by
      rw [cpuOutcomes, if_neg hpl_ne]
    have hsc_ge : NEG_INF ≤ (stayEval cb st.board st.strip_cells).1 := by
      rw [hMs]
      exact le_listMaxF _ _ _
    have hspecacts : specActions cb st =
        (empty_cells st.board st.strip_cells).map
          (fun p => CpuAction.stay (some p)) ++ moveActions cb st := by
      rw [specActions, if_neg (by push_neg; exact ⟨hstrip_ne, hemp_ne⟩)]
    -- the spec's pooled maximum equals the shift-or-stay maximum
    have hspecM : listMaxF (specScore cb st) NEG_INF (specActions cb st) =
        listMaxF (actionScore cb (stayEval cb st.board st.strip_cells).1)
          ((stayEval cb st.board st.strip_cells).1) (moveActions cb st) := by
      rw [hspecacts, listMaxF_append, listMaxF_map]
      have h1 : listMaxF
          (fun x => specScore cb st (CpuAction.stay (some x))) NEG_INF
          (empty_cells st.board st.strip_cells) =
          (stayEval cb st.board st.strip_cells).1 := by
        rw [hMs]
        apply listMaxF_congr
        intro x _
        rfl
      rw [h1]
      apply listMaxF_congr
      intro x hx
      rw [moveActions] at hx
      obtain ⟨m, -, rfl⟩ := List.mem_map.mp hx
      rfl
    by_cases hcase :
        listMaxF (actionScore cb (stayEval cb st.board st.strip_cells).1)
          ((stayEval cb st.board st.strip_cells).1) (moveActions cb st) =
          (stayEval cb st.board st.strip_cells).1
    · -- every shift scores strictly below the stay score
      have hmlt : ∀ x ∈ moveActions cb st,
          actionScore cb (stayEval cb st.board st.strip_cells).1 x <
            (stayEval cb st.board st.strip_cells).1 := by
        intro x hx
        have hle := mem_le_listMaxF
          (actionScore cb (stayEval cb st.board st.strip_cells).1)
          (moveActions cb st) ((stayEval cb st.board st.strip_cells).1) x hx
        rw [hcase] at hle
        refine lt_of_le_of_ne hle ?_
        rw [moveActions] at hx
        obtain ⟨m, hm, rfl⟩ := List.mem_map.mp hx
        exact fun hh => (hnotie m hm) hh.symm
      have hcand : ∀ p : Int × Int,
          candidatesFor cb st (stayEval cb st.board st.strip_cells).1
            (some p) = [CpuAction.stay (some p)] :=
        fun p => candidatesFor_stay_only cb st _ (some p) hsc_ge hmlt
      have houtcomes : cpuOutcomes cb st =
          ((stayEval cb st.board st.strip_cells).2).map
            (fun p => CpuAction.stay (some p)) := by
        rw [hout]
        have hfun : (fun p => candidatesFor cb st
            (stayEval cb st.board st.strip_cells).1 (some p)) =
            (fun p => [CpuAction.stay (some p)]) :=
          funext fun p => hcand p
        rw [hfun, flatMap_singleton_map]
      have hspec : specPooledTied cb st =
          ((stayEval cb st.board st.strip_cells).2).map
            (fun p => CpuAction.stay (some p)) := by
        rw [specPooledTied, hspecM, hcase, hspecacts, List.filter_append]
        have hmv : (moveActions cb st).filter (fun x =>
            decide (specScore cb st x =
              (stayEval cb st.board st.strip_cells).1)) = [] := by
          rw [List.filter_eq_nil_iff]
          intro x hx
          simp only [decide_eq_true_eq]
          have hlt := hmlt x hx
          rw [moveActions] at hx
          obtain ⟨m, -, rfl⟩ := List.mem_map.mp hx
          exact fun hh => absurd (show actionScore cb
            (stayEval cb st.board st.strip_cells).1
            (CpuAction.move (evaluate_move cb st.board m st.view_x
              st.view_y).2) = (stayEval cb st.board st.strip_cells).1
            from hh) (ne_of_lt hlt)
        rw [hmv, List.append_nil, filter_map_comm, hpl_eq, hMs]
        exact congrArg (List.map (fun p => CpuAction.stay (some p)))
          (List.filter_congr (fun x _ => rfl))
      rw [houtcomes, hspec]
    · -- some shift scores strictly above the stay score
      have hlt : (stayEval cb st.board st.strip_cells).1 <
          listMaxF (actionScore cb (stayEval cb st.board st.strip_cells).1)
            ((stayEval cb st.board st.strip_cells).1) (moveActions cb st) :=
        lt_of_le_of_ne (le_listMaxF _ _ _) (fun hh => hcase hh.symm)
      have hcand : ∀ p : Int × Int,
          candidatesFor cb st (stayEval cb st.board st.strip_cells).1
            (some p) =
          (moveActions cb st).filter (fun x =>
            decide (actionScore cb (stayEval cb st.board st.strip_cells).1 x =
              listMaxF
                (actionScore cb (stayEval cb st.board st.strip_cells).1)
                ((stayEval cb st.board st.strip_cells).1)
                (moveActions cb st))) :=
        fun p => candidatesFor_moves_only cb st _ (some p) hsc_ge hlt
      have houtcomes : cpuOutcomes cb st =
          ((stayEval cb st.board st.strip_cells).2).flatMap (fun _ =>
            (moveActions cb st).filter (fun x =>
              decide (actionScore cb
                (stayEval cb st.board st.strip_cells).1 x =
                listMaxF
                  (actionScore cb (stayEval cb st.board st.strip_cells).1)
                  ((stayEval cb st.board st.strip_cells).1)
                  (moveActions cb st)))) := by
        rw [hout]
        have hfun : (fun p => candidatesFor cb st
            (stayEval cb st.board st.strip_cells).1 (some p)) =
            (fun _ => (moveActions cb st).filter (fun x =>
              decide (actionScore cb
                (stayEval cb st.board st.strip_cells).1 x =
                listMaxF
                  (actionScore cb (stayEval cb st.board st.strip_cells).1)
                  ((stayEval cb st.board st.strip_cells).1)
                  (moveActions cb st)))) :=
          funext fun p => hcand p
        rw [hfun]
      have hspec : specPooledTied cb st =
          (moveActions cb st).filter (fun x =>
            decide (actionScore cb (stayEval cb st.board st.strip_cells).1 x =
              listMaxF
                (actionScore cb (stayEval cb st.board st.strip_cells).1)
                ((stayEval cb st.board st.strip_cells).1)
                (moveActions cb st))) := by
        rw [specPooledTied, hspecM, hspecacts, List.filter_append]
        have hpm : ((empty_cells st.board st.strip_cells).map
            (fun p => CpuAction.stay (some p))).filter (fun x =>
              decide (specScore cb st x =
                listMaxF
                  (actionScore cb (stayEval cb st.board st.strip_cells).1)
                  ((stayEval cb st.board st.strip_cells).1)
                  (moveActions cb st))) = [] := by
          rw [List.filter_eq_nil_iff]
          intro x hx
          obtain ⟨p, hp, rfl⟩ := List.mem_map.mp hx
          simp only [decide_eq_true_eq]
          intro hh
          have h1 : placeScore cb st.board
              (immediate_win_cells st.board Mark.X) p ≤
              (stayEval cb st.board st.strip_cells).1 := by
            rw [hMs]
            exact mem_le_listMaxF _ _ _ p hp
          have h2 : specScore cb st (CpuAction.stay (some p)) =
              placeScore cb st.board (immediate_win_cells st.board Mark.X)
                p := rfl
          rw [h2] at hh
          rw [hh] at h1
          exact absurd (lt_of_le_of_lt h1 hlt) (lt_irrefl _)
        rw [hpm, List.nil_append]
        apply List.filter_congr
        intro x hx
        rw [moveActions] at hx
        obtain ⟨m, -, rfl⟩ := List.mem_map.mp hx
        rfl
      rw [houtcomes, hspec, probList, probList, count_flatMap_const,
        length_flatMap_const]
      have hk0 : ((stayEval cb st.board st.strip_cells).2.length : ℚ) ≠ 0 := by
        have := List.length_pos.mpr hpl_ne
        exact_mod_cast Nat.pos_iff_ne_zero.mp this
      push_cast
      rw [mul_div_mul_left _ _ hk0]

/-- C5 amended. The computer's selection is a two-stage draw — uniform over
the tied best placements inside `evaluate_stay`, then uniform over the
pooled candidates built from that single representative — and, whenever no
shift score ties the stay score exactly, the resulting outcome distribution
coincides with a single uniform draw over the spec's pooled tied set. -/
theorem c5_two_stage_uniform (cb : Int → Int → ℚ) (st : GameState)
    (hcb : cbOK cb) (hstrip : stripOK st) (hnd : st.strip_cells.Nodup)
    (hnotie : ∀ m ∈ legalMoves st.view_x st.view_y,
      (stayEval cb st.board st.strip_cells).1 ≠
        (evaluate_move cb st.board m st.view_x st.view_y).1) :
    ∀ a, probList (cpuOutcomes cb st) a =
      if a ∈ specPooledTied cb st then
        (1 : ℚ) / ((specPooledTied cb st).length : ℚ)
      else 0 := by
  intro a
  rw [cpuOutcomes_prob_eq_spec cb st hcb hstrip hnotie a,
    probList_nodup (specPooledTied_nodup cb st hnd) a]

/-- Witness for the amended C5: with no strip, the computer's outcome
distribution is uniform over the spec's pooled tied set. -/
theorem c5_witness :
    probList (cpuOutcomes cbW stW5) (CpuAction.move (8, 7)) =
      if CpuAction.move (8, 7) ∈ specPooledTied cbW stW5 then
        (1 : ℚ) / ((specPooledTied cbW stW5).length : ℚ)
      else 0 :=
  c5_two_stage_uniform cbW stW5
    ⟨fun _ _ => by norm_num [cbW], fun _ _ _ _ _ _ => by norm_num [cbW]⟩
    (by unfold stripOK; decide) (by decide)
    (by
      intro m hm
      have h1 : (stayEval cbW stW5.board stW5.strip_cells).1 = NEG_INF := rfl
      rw [h1]
      have h2 : (evaluate_move cbW stW5.board m stW5.view_x stW5.view_y).1 =
          -5 := by
        cases m <;> norm_num [evaluate_move, cbW, delta]
      rw [h2]
      norm_num [NEG_INF])
    (CpuAction.move (8, 7))

/-- Counterexample to C5 as stated: under `cbEx` (whose values satisfy the
real center-bias bounds) the two placements (0,0), (0,1) and the shift to
(8,7) all tie at the pooled maximum score -6, so the spec's pooled tied set
has three members — but the code draws the shift with probability 1/2
(it survives both stay representatives), not the claimed uniform 1/3. -/
theorem c5_counterexample :
    CpuAction.move (8, 7) ∈ specPooledTied cbEx stEx ∧
      (specPooledTied cbEx stEx).length = 3 ∧
      probList (cpuOutcomes cbEx stEx) (CpuAction.move (8, 7)) ≠
        (1 : ℚ) / ((specPooledTied cbEx stEx).length : ℚ) := by
  have hps1 : placeScore cbEx stEx.board [] (0, 0) = -6 := by
    rw [placeScore, if_neg (by decide)]
    have hO : line_score (setCell stEx.board 0 0 (some Mark.O)) 0 0 Mark.O =
        4 := by decide
    have hX : line_score (setCell stEx.board 0 0 (some Mark.O)) 0 0 Mark.X =
        4 := by decide
    rw [hO, hX]
    norm_num [cbEx]
  have hps2 : placeScore cbEx stEx.board [] (0, 1) = -6 := by
    rw [placeScore, if_neg (by decide)]
    have hO : line_score (setCell stEx.board 1 0 (some Mark.O)) 0 1 Mark.O =
        4 := by decide
    have hX : line_score (setCell stEx.board 1 0 (some Mark.O)) 0 1 Mark.X =
        4 := by decide
    rw [hO, hX]
    norm_num [cbEx]
  have hps3 : placeScore cbEx stEx.board [] (0, 2) = -16 := by
    rw [placeScore, if_neg (by decide)]
    have hO : line_score (setCell stEx.board 2 0 (some Mark.O)) 0 2 Mark.O =
        4 := by decide
    have hX : line_score (setCell stEx.board 2 0 (some Mark.O)) 0 2 Mark.X =
        4 := by decide
    rw [hO, hX]
    norm_num [cbEx]
  have hpw : immediate_win_cells stEx.board Mark.X = [] := iwc_bEmpty Mark.X
  have hec : empty_cells stEx.board stEx.strip_cells =
      [(0, 0), (0, 1), (0, 2)] := by decide
  have hstay : stayEval cbEx stEx.board stEx.strip_cells =
      (-6, [(0, 0), (0, 1)]) := by
    rw [stayEval, if_neg (by decide), if_neg (by rw [hec]; simp), hpw, hec,
      argmaxF]
    simp only [List.foldl_cons, List.foldl_nil, amStep, hps1, hps2, hps3,
      max_def]
    norm_num [NEG_INF]
  have hsc : (stayEval cbEx stEx.board stEx.strip_cells).1 = -6 := by
    rw [hstay]
  have hpl : (stayEval cbEx stEx.board stEx.strip_cells).2 =
      [(0, 0), (0, 1)] := by
    rw [hstay]
  have hma : moveActions cbEx stEx =
      [CpuAction.move (8, 7), CpuAction.move (8, 9), CpuAction.move (7, 8),
        CpuAction.move (9, 8)] := by decide
  have hsup : actionScore cbEx (-6) (CpuAction.move (8, 7)) = -6 := by
    show cbEx 9 8 * 5 = -6
    norm_num [cbEx]
  have hsdn : actionScore cbEx (-6) (CpuAction.move (8, 9)) = -65 := by
    show cbEx 9 10 * 5 = -65
    norm_num [cbEx]
  have hslt : actionScore cbEx (-6) (CpuAction.move (7, 8)) = -65 := by
    show cbEx 8 9 * 5 = -65
    norm_num [cbEx]
  have hsrt : actionScore cbEx (-6) (CpuAction.move (9, 8)) = -65 := by
    show cbEx 10 9 * 5 = -65
    norm_num [cbEx]
  have hcand : ∀ sp : Option (Int × Int),
      candidatesFor cbEx stEx (-6) sp =
        [CpuAction.stay sp, CpuAction.move (8, 7)] := by
    intro sp
    have hM : listMaxF (actionScore cbEx (-6)) NEG_INF
        (cpuActions cbEx stEx sp) = -6 := by
      rw [cpuActions, hma]
      simp only [listMaxF, List.foldl_cons, List.foldl_nil, hsup, hsdn,
        hslt, hsrt,
        show actionScore cbEx (-6) (CpuAction.stay sp) = -6 from rfl,
        max_def]
      norm_num [NEG_INF]
    rw [candidatesFor, argmaxF_snd, hM, cpuActions, hma, List.filter_cons,
      if_pos (decide_eq_true
        (show actionScore cbEx (-6) (CpuAction.stay sp) = -6 from rfl)),
      List.filter_cons, if_pos (decide_eq_true hsup),
      List.filter_cons,
      if_neg (by simp only [decide_eq_true_eq]; rw [hsdn]; norm_num),
      List.filter_cons,
      if_neg (by simp only [decide_eq_true_eq]; rw [hslt]; norm_num),
      List.filter_cons,
      if_neg (by simp only [decide_eq_true_eq]; rw [hsrt]; norm_num),
      List.filter_nil]
  have houtcomes : cpuOutcomes cbEx stEx =
      [CpuAction.stay (some (0, 0)), CpuAction.move (8, 7),
        CpuAction.stay (some (0, 1)), CpuAction.move (8, 7)] := by
    rw [cpuOutcomes, if_neg (by rw [hpl]; simp), hpl, hsc,
      List.flatMap_cons, hcand (some (0, 0)), List.flatMap_cons,
      hcand (some (0, 1)), List.flatMap_nil]
    rfl
  have hsa : specActions cbEx stEx =
      [CpuAction.stay (some (0, 0)), CpuAction.stay (some (0, 1)),
        CpuAction.stay (some (0, 2)), CpuAction.move (8, 7),
        CpuAction.move (8, 9), CpuAction.move (7, 8),
        CpuAction.move (9, 8)] := by decide
  have hss1 : specScore cbEx stEx (CpuAction.stay (some (0, 0))) = -6 := by
    show placeScore cbEx stEx.board (immediate_win_cells stEx.board Mark.X)
      (0, 0) = -6
    rw [hpw]
    exact hps1
  have hss2 : specScore cbEx stEx (CpuAction.stay (some (0, 1))) = -6 := by
    show placeScore cbEx stEx.board (immediate_win_cells stEx.board Mark.X)
      (0, 1) = -6
    rw [hpw]
    exact hps2
  have hss3 : specScore cbEx stEx (CpuAction.stay (some (0, 2))) = -16 := by
    show placeScore cbEx stEx.board (immediate_win_cells stEx.board Mark.X)
      (0, 2) = -16
    rw [hpw]
    exact hps3
  have hss4 : specScore cbEx stEx (CpuAction.move (8, 7)) = -6 := by
    show cbEx 9 8 * 5 = -6
    norm_num [cbEx]
  have hss5 : specScore cbEx stEx (CpuAction.move (8, 9)) = -65 := by
    show cbEx 9 10 * 5 = -65
    norm_num [cbEx]
  have hss6 : specScore cbEx stEx (CpuAction.move (7, 8)) = -65 := by
    show cbEx 8 9 * 5 = -65
    norm_num [cbEx]
  have hss7 : specScore cbEx stEx (CpuAction.move (9, 8)) = -65 := by
    show cbEx 10 9 * 5 = -65
    norm_num [cbEx]
  have hspecM : listMaxF (specScore cbEx stEx) NEG_INF
      (specActions cbEx stEx) = -6 := by
    rw [hsa]
    simp only [listMaxF, List.foldl_cons, List.foldl_nil, hss1, hss2, hss3,
      hss4, hss5, hss6, hss7, max_def]
    norm_num [NEG_INF]
  have hst : specPooledTied cbEx stEx =
      [CpuAction.stay (some (0, 0)), CpuAction.stay (some (0, 1)),
        CpuAction.move (8, 7)] := by
    rw [specPooledTied, hspecM, hsa, List.filter_cons,
      if_pos (decide_eq_true hss1), List.filter_cons,
      if_pos (decide_eq_true hss2), List.filter_cons,
      if_neg (by simp only [decide_eq_true_eq]; rw [hss3]; norm_num),
      List.filter_cons, if_pos (decide_eq_true hss4), List.filter_cons,
      if_neg (by simp only [decide_eq_true_eq]; rw [hss5]; norm_num),
      List.filter_cons,
      if_neg (by simp only [decide_eq_true_eq]; rw [hss6]; norm_num),
      List.filter_cons,
      if_neg (by simp only [decide_eq_true_eq]; rw [hss7]; norm_num),
      List.filter_nil]
  refine ⟨by rw [hst]; simp, by rw [hst]; rfl, ?_⟩
  rw [probList, houtcomes, hst]
  have hcount : ([CpuAction.stay (some (0, 0)), CpuAction.move (8, 7),
      CpuAction.stay (some (0, 1)), CpuAction.move (8, 7)]).count
      (CpuAction.move (8, 7)) = 2 := by decide
  rw [hcount]
  simp only [List.length_cons, List.length_nil]
  norm_num
